import Mathlib

/-!
Verification development for the news-scraper repository
(`scraper.py`, `cleanup_old_articles.py`).

Strings are modelled as `List Char` (`Str`).  Python `datetime` values are
modelled by the structure `DT` below: calendar fields plus an optional
fixed-offset timezone in minutes (`tz = none` models a naive datetime).
`datetime`/`timedelta` arithmetic is modelled through the standard
days-from-civil / civil-from-days conversion on the proleptic Gregorian
calendar, which is the calendar `datetime` implements via
`toordinal`/`fromordinal`.  External date-parsing collaborators
(`dateutil.parser.parse`) are taken as function parameters.
-/

namespace News

abbrev Str := List Char

/-- Python `str.strip` whitespace class (ASCII part, which is all that the
scraped strings contain). -/
def isSpacePy (c : Char) : Bool :=
  c = ' ' || c = '\t' || c = '\n' || c = '\x0d' || c = '\x0b' || c = '\x0c'

/-- Python regex `\w` class (ASCII part). -/
def isWordPy (c : Char) : Bool :=
  c.isAlphanum || c = '_'

/-- Python `str.strip()`. -/
def pstrip (t : Str) : Str :=
  (((t.dropWhile isSpacePy).reverse).dropWhile isSpacePy).reverse

/-- Python `str.rstrip("/")`. -/
def rstripSlash (t : Str) : Str :=
  (t.reverse.dropWhile (fun c => c = '/')).reverse

/-- Python `str.lower()` (ASCII). -/
def lowerStr (t : Str) : Str := t.map Char.toLower

/-- Python `needle in hay` substring test. -/
def hasSub (needle : Str) : Str → Bool
  | [] => needle.isEmpty
  | c :: cs => needle.isPrefixOf (c :: cs) || hasSub needle cs

/-- Python `str.startswith`. -/
def startsWithStr (p t : Str) : Bool := p.isPrefixOf t

/-! ## Python `datetime` model -/

/-- A Python `datetime`: calendar fields plus optional fixed utc-offset in
minutes (`none` = naive).  Microseconds are always zero in this program and
are omitted. -/
structure DT where
  year : Int
  month : Int
  day : Int
  hour : Int
  minute : Int
  second : Int
  tz : Option Int
deriving DecidableEq, Repr

/-- CPython `_is_leap`. -/
def isLeap (y : Int) : Prop :=
  y % 4 = 0 ∧ (y % 100 ≠ 0 ∨ y % 400 = 0)

instance (y : Int) : Decidable (isLeap y) := by
  unfold isLeap
  infer_instance

/-- CPython `_DAYS_IN_MONTH` table (non-leap). -/
def dimNL (m : Int) : Int :=
  if m = 2 then 28
  else if m = 4 ∨ m = 6 ∨ m = 9 ∨ m = 11 then 30
  else 31

/-- CPython `_days_in_month`. -/
def daysInMonth (y m : Int) : Int :=
  if m = 2 ∧ isLeap y then 29 else dimNL m

/-- CPython `_DAYS_BEFORE_MONTH` table. -/
def dbm (m : Int) : Int :=
  if m ≤ 1 then 0 else if m = 2 then 31 else if m = 3 then 59 else if m = 4 then 90
  else if m = 5 then 120 else if m = 6 then 151 else if m = 7 then 181 else if m = 8 then 212
  else if m = 9 then 243 else if m = 10 then 273 else if m = 11 then 304 else 334

/-- CPython `_days_before_year`.  `/` and `%` on `Int` are Euclidean
(floor for positive divisors), matching Python `//` and `%`. -/
def dby (y : Int) : Int :=
  (y - 1) * 365 + (y - 1) / 4 - (y - 1) / 100 + (y - 1) / 400

/-- CPython `_ymd2ord`: proleptic Gregorian ordinal of a date
(ordinal 1 is 0001-01-01, as in Python `date.toordinal`). -/
def ymd2ord (y m d : Int) : Int :=
  dby y + dbm m + (if 2 < m ∧ isLeap y then 1 else 0) + d

/-- CPython `_ord2ymd`: date of a proleptic Gregorian ordinal
(`divmod` chains become `/`/`%` pairs; `>> 5` is `/ 32`). -/
def ord2ymd (n0 : Int) : Int × Int × Int :=
  let n := n0 - 1
  let n400 := n / 146097
  let r400 := n % 146097
  let n100 := r400 / 36524
  let r100 := r400 % 36524
  let n4 := r100 / 1461
  let r4 := r100 % 1461
  let n1 := r4 / 365
  let rem := r4 % 365
  let year := n400 * 400 + 1 + n100 * 100 + n4 * 4 + n1
  if n1 = 4 ∨ n100 = 4 then (year - 1, 12, 31)
  else
    let month := (rem + 50) / 32
    let preceding := dbm month + (if 2 < month ∧ (n1 = 3 ∧ (n4 ≠ 24 ∨ n100 = 3)) then 1 else 0)
    if rem < preceding then
      let month2 := month - 1
      let preceding2 :=
        preceding - (dimNL month2 + (if month2 = 2 ∧ (n1 = 3 ∧ (n4 ≠ 24 ∨ n100 = 3)) then 1 else 0))
      (year, month2, rem - preceding2 + 1)
    else (year, month, rem - preceding + 1)

/-- Division/remainder characterization used to eliminate `/` and `%`. -/
theorem edivBreak (a b : Int) (hb : 0 < b) :
    b * (a / b) + a % b = a ∧ 0 ≤ a % b ∧ a % b < b :=
  ⟨Int.ediv_add_emod a b, Int.emod_nonneg a (by omega), Int.emod_lt_of_pos a hb⟩

/-- Case characterization of an integer-valued `if`. -/
theorem iteBreak (c : Prop) [Decidable c] (a b : Int) :
    (c ∧ (if c then a else b) = a) ∨ (¬ c ∧ (if c then a else b) = b) := by
  split_ifs with h
  · exact Or.inl ⟨h, rfl⟩
  · exact Or.inr ⟨h, rfl⟩

/-- Lemma: `dbm` accumulates `dimNL` month lengths. -/
theorem dbm_step (M : Int) (h1 : 2 ≤ M) (h2 : M ≤ 12) :
    dbm (M - 1) + dimNL (M - 1) = dbm M := by
  interval_cases M <;> simp [dbm, dimNL]

/-- Evaluation of `ymd2ord` on a year given in 400/100/4/1 decomposed form.
The `A` parameter is the leap-day adjustment for months past February. -/
theorem ymd2ord_eval (Y N400 N100 N4 N1 M D A : Int)
    (hY : Y = 400 * N400 + 100 * N100 + 4 * N4 + N1 + 1)
    (hb : 0 ≤ N100 ∧ N100 ≤ 3 ∧ 0 ≤ N4 ∧ N4 ≤ 24 ∧ 0 ≤ N1 ∧ N1 ≤ 3)
    (hA : ((2 < M ∧ (N1 = 3 ∧ (N4 ≠ 24 ∨ N100 = 3))) ∧ A = 1)
        ∨ (¬(2 < M ∧ (N1 = 3 ∧ (N4 ≠ 24 ∨ N100 = 3))) ∧ A = 0)) :
    ymd2ord Y M D = 146097 * N400 + 36524 * N100 + 1461 * N4 + 365 * N1 + dbm M + A + D := by
  simp only [ymd2ord, dby, isLeap]
  subst hY
  obtain ⟨c1, c2, c3⟩ := edivBreak (400 * N400 + 100 * N100 + 4 * N4 + N1 + 1 - 1) 4 (by norm_num)
  set q1 := (400 * N400 + 100 * N100 + 4 * N4 + N1 + 1 - 1) / 4 with h1
  set r1 := (400 * N400 + 100 * N100 + 4 * N4 + N1 + 1 - 1) % 4 with h2
  clear h1 h2
  obtain ⟨c4, c5, c6⟩ := edivBreak (400 * N400 + 100 * N100 + 4 * N4 + N1 + 1 - 1) 100 (by norm_num)
  set q2 := (400 * N400 + 100 * N100 + 4 * N4 + N1 + 1 - 1) / 100 with h3
  set r2 := (400 * N400 + 100 * N100 + 4 * N4 + N1 + 1 - 1) % 100 with h4
  clear h3 h4
  obtain ⟨c7, c8, c9⟩ := edivBreak (400 * N400 + 100 * N100 + 4 * N4 + N1 + 1 - 1) 400 (by norm_num)
  set q3 := (400 * N400 + 100 * N100 + 4 * N4 + N1 + 1 - 1) / 400 with h5
  set r3 := (400 * N400 + 100 * N100 + 4 * N4 + N1 + 1 - 1) % 400 with h6
  clear h5 h6
  obtain ⟨c10, c11, c12⟩ := edivBreak (400 * N400 + 100 * N100 + 4 * N4 + N1 + 1) 4 (by norm_num)
  set q4 := (400 * N400 + 100 * N100 + 4 * N4 + N1 + 1) / 4 with h7
  set r4 := (400 * N400 + 100 * N100 + 4 * N4 + N1 + 1) % 4 with h8
  clear h7 h8
  obtain ⟨c13, c14, c15⟩ := edivBreak (400 * N400 + 100 * N100 + 4 * N4 + N1 + 1) 100 (by norm_num)
  set q5 := (400 * N400 + 100 * N100 + 4 * N4 + N1 + 1) / 100 with h9
  set r5 := (400 * N400 + 100 * N100 + 4 * N4 + N1 + 1) % 100 with h10
  clear h9 h10
  obtain ⟨c16, c17, c18⟩ := edivBreak (400 * N400 + 100 * N100 + 4 * N4 + N1 + 1) 400 (by norm_num)
  set q6 := (400 * N400 + 100 * N100 + 4 * N4 + N1 + 1) / 400 with h11
  set r6 := (400 * N400 + 100 * N100 + 4 * N4 + N1 + 1) % 400 with h12
  clear h11 h12
  split_ifs with hL <;> omega

set_option maxHeartbeats 1600000 in
/-- Roundtrip: `ord2ymd` is a right inverse of `ymd2ord`: converting an ordinal to a
date and back yields the original ordinal. -/
theorem ymd2ord_ord2ymd (n y m d : Int) (h : ord2ymd n = (y, m, d)) :
    ymd2ord y m d = n := by
  simp only [ord2ymd] at h
  obtain ⟨c1, c2, c3⟩ := edivBreak (n - 1) 146097 (by norm_num)
  set n400 := (n - 1) / 146097 with h1
  set r400 := (n - 1) % 146097 with h2
  clear h1 h2
  obtain ⟨c4, c5, c6⟩ := edivBreak r400 36524 (by norm_num)
  set n100 := r400 / 36524 with h3
  set r100 := r400 % 36524 with h4
  clear h3 h4
  obtain ⟨c7, c8, c9⟩ := edivBreak r100 1461 (by norm_num)
  set n4 := r100 / 1461 with h5
  set r4 := r100 % 1461 with h6
  clear h5 h6
  obtain ⟨c10, c11, c12⟩ := edivBreak r4 365 (by norm_num)
  set n1 := r4 / 365 with h7
  set rem := r4 % 365 with h8
  clear h7 h8
  obtain ⟨c13, c14, c15⟩ := edivBreak (rem + 50) 32 (by norm_num)
  set month0 := (rem + 50) / 32 with h9
  set r32 := (rem + 50) % 32 with h10
  clear h9 h10
  have iA1 := iteBreak (2 < month0 ∧ (n1 = 3 ∧ (n4 ≠ 24 ∨ n100 = 3))) (1 : Int) 0
  set adj1 := if 2 < month0 ∧ (n1 = 3 ∧ (n4 ≠ 24 ∨ n100 = 3)) then (1 : Int) else 0 with h11
  clear h11
  have iA2 := iteBreak (month0 - 1 = 2 ∧ (n1 = 3 ∧ (n4 ≠ 24 ∨ n100 = 3))) (1 : Int) 0
  set adj2 := if month0 - 1 = 2 ∧ (n1 = 3 ∧ (n4 ≠ 24 ∨ n100 = 3)) then (1 : Int) else 0 with h12
  clear h12
  split_ifs at h with hA hCorr
  · -- December 31 branch: `n1 = 4` or `n100 = 4`
    simp only [Prod.mk.injEq] at h
    obtain ⟨hy, hm, hd⟩ := h
    subst hy hm hd
    have d1 : dbm 12 = 334 := by norm_num [dbm]
    rcases hA with h4' | h100'
    · rw [ymd2ord_eval _ n400 n100 n4 3 12 31 1 (by omega) (by omega) (by omega)]
      omega
    · rw [ymd2ord_eval _ n400 3 24 3 12 31 1 (by omega) (by omega) (by omega)]
      omega
  · -- estimated month, correction branch taken
    simp only [Prod.mk.injEq] at h
    obtain ⟨hy, hm, hd⟩ := h
    subst hy hm hd
    have iA3 := iteBreak (2 < month0 - 1 ∧ (n1 = 3 ∧ (n4 ≠ 24 ∨ n100 = 3))) (1 : Int) 0
    rw [ymd2ord_eval _ n400 n100 n4 n1 (month0 - 1) _
      (if 2 < month0 - 1 ∧ (n1 = 3 ∧ (n4 ≠ 24 ∨ n100 = 3)) then (1 : Int) else 0)
      (by omega) (by omega) iA3]
    rcases (by omega : month0 = 1 ∨ 2 ≤ month0) with h1' | h2'
    · rw [h1'] at hCorr
      have d0 : dbm 1 = 0 := by norm_num [dbm]
      omega
    · have hstep := dbm_step month0 h2' (by omega)
      omega
  · -- estimated month, no correction
    simp only [Prod.mk.injEq] at h
    obtain ⟨hy, hm, hd⟩ := h
    subst hy hm hd
    rw [ymd2ord_eval _ n400 n100 n4 n1 month0 _ adj1 (by omega) (by omega) iA1]
    omega

/-! ## `datetime` arithmetic -/

/-- Ordinal of a `DT`'s date (Python `date.toordinal`). -/
def toOrd (dt : DT) : Int := ymd2ord dt.year dt.month dt.day

/-- Seconds-since-ordinal-zero of a naive `DT`'s wall-clock reading. -/
def epochSecs (dt : DT) : Int :=
  86400 * toOrd dt + 3600 * dt.hour + 60 * dt.minute + dt.second

/-- Python `datetime - timedelta(seconds=s)`: exact wall-clock shift,
tzinfo preserved. -/
def subSeconds (dt : DT) (s : Int) : DT :=
  let t := epochSecs dt - s
  let p := ord2ymd (t / 86400)
  ⟨p.1, p.2.1, p.2.2, t % 86400 / 3600, t % 86400 % 3600 / 60, t % 86400 % 60, dt.tz⟩

/-- The instant a `DT` denotes, in seconds (UTC offset removed when aware).
Python compares two aware datetimes, or two naive ones, exactly this way. -/
def instSecs (dt : DT) : Int := epochSecs dt - 60 * dt.tz.getD 0

/-- Python `datetime.replace(hour=12, minute=0, second=0, microsecond=0)`. -/
def setNoon (dt : DT) : DT := { dt with hour := 12, minute := 0, second := 0 }

/-- dateutil `relativedelta`: `dt - relativedelta(months=n)`. Calendar month
arithmetic, day clamped to the target month's length. -/
def subMonths (dt : DT) (n : Int) : DT :=
  let tot := dt.year * 12 + (dt.month - 1) - n
  let y := tot / 12
  let m := tot % 12 + 1
  ⟨y, m, min dt.day (daysInMonth y m), dt.hour, dt.minute, dt.second, dt.tz⟩

/-- dateutil `relativedelta`: `dt - relativedelta(years=n)`. Day clamped
(Feb 29 maps to Feb 28 on non-leap targets). -/
def subYears (dt : DT) (n : Int) : DT :=
  let y := dt.year - n
  ⟨y, dt.month, min dt.day (daysInMonth y dt.month), dt.hour, dt.minute, dt.second, dt.tz⟩

/-! ## `cleanup_old_articles.py` -/

/-- Constant `DATE_COL_INDEX = 2`. -/
def dateColIndex : Nat := 2

/-- One sheet row: a list of cell strings. -/
abbrev Row := List Str

/-- Python `dt.replace(tzinfo=IST)` applied when the parsed datetime is naive;
IST is UTC+05:30 = 330 minutes. -/
def attachIST (dt : DT) : DT :=
  if dt.tz = none then { dt with tz := some 330 } else dt

/-- Per-row decision of the cleanup loop (`cleanup_old_articles`, lines
88-105): a data row is marked for deletion/archival iff it has a date cell,
the stripped date string is non-empty, the external parser succeeds, and the
(IST-attached if naive) parsed date is strictly before the cutoff.  `parse`
models `dateutil.parser.parse`; `none` models a raised exception. -/
def rowOld (parse : Str → Option DT) (cutoff : DT) (row : Row) : Bool :=
  if row.length ≤ dateColIndex then false
  else if pstrip (row.getD dateColIndex []) = [] then false
  else match parse (pstrip (row.getD dateColIndex [])) with
    | none => false
    | some dt => decide (instSecs (attachIST dt) < instSecs cutoff)

/-- Positions (counter starting at `k`) of the rows satisfying `p`; models
the `enumerate(rows[1:], start=2)` / `sheet_row_num - 1` bookkeeping. -/
def collectIdx (p : Row → Bool) : Nat → List Row → List Nat
  | _, [] => []
  | k, r :: rs => if p r then k :: collectIdx p (k + 1) rs else collectIdx p (k + 1) rs

/-- Computation of `rows_to_delete_idx` (0-based positions in the full table, header at 0). -/
def rowsToDeleteIdx (parse : Str → Option DT) (rows : List Row) (cutoff : DT) : List Nat :=
  if rows.length ≤ 1 then [] else collectIdx (rowOld parse cutoff) 1 (rows.drop 1)

/-- Computation of `rows_to_archive`. -/
def rowsToArchive (parse : Str → Option DT) (rows : List Row) (cutoff : DT) : List Row :=
  if rows.length ≤ 1 then [] else (rows.drop 1).filter (rowOld parse cutoff)

/-- Inner loop of `merge_contiguous_rows`. -/
def mergeLoop (start prev : Nat) : List Nat → List (Nat × Nat)
  | [] => [(start, prev + 1)]
  | r :: rest =>
    if r = prev + 1 then mergeLoop start r rest
    else (start, prev + 1) :: mergeLoop r r rest

/-- Function `merge_contiguous_rows`: sort ascending, then coalesce runs of
consecutive integers into half-open `(start, endExclusive)` ranges. -/
def merge_contiguous_rows (rows : List Nat) : List (Nat × Nat) :=
  match List.insertionSort (· ≤ ·) rows with
  | [] => []
  | x :: xs => mergeLoop x x xs

/-- Python `list.sort(reverse=True)` order on `(start, end)` pairs:
descending lexicographic. -/
def descLex (a b : Nat × Nat) : Prop := b.1 < a.1 ∨ (b.1 = a.1 ∧ b.2 ≤ a.2)

instance : DecidableRel descLex := fun a b => by
  unfold descLex
  infer_instance

instance : IsTotal (Nat × Nat) descLex :=
  ⟨by intro a b; unfold descLex; omega⟩

instance : IsTrans (Nat × Nat) descLex :=
  ⟨by intro a b c; unfold descLex; omega⟩

/-- Value of `delete_ranges` after `delete_ranges.sort(reverse=True)`. -/
def deleteRangesSorted (parse : Str → Option DT) (rows : List Row) (cutoff : DT) :
    List (Nat × Nat) :=
  List.insertionSort descLex (merge_contiguous_rows (rowsToDeleteIdx parse rows cutoff))

/-- The `requests` loop: ranges starting at or past `total_rows` are
dropped, surviving ends are clamped to `total_rows`. -/
def deleteRequests (parse : Str → Option DT) (rows : List Row) (cutoff : DT) :
    List (Nat × Nat) :=
  (deleteRangesSorted parse rows cutoff).filterMap fun p =>
    if p.1 < rows.length then some (p.1, min p.2 rows.length) else none

/-! ### Lemmas about `collectIdx` -/

theorem collectIdx_ge (p : Row → Bool) :
    ∀ (k : Nat) (rs : List Row), ∀ m ∈ collectIdx p k rs, k ≤ m := by
  intro k rs
  induction rs generalizing k with
  | nil => intro m hm; simp [collectIdx] at hm
  | cons r rs ih =>
    intro m hm
    simp only [collectIdx] at hm
    by_cases hp : p r
    · rw [if_pos hp] at hm
      rcases List.mem_cons.mp hm with rfl | hm2
      · exact Nat.le_refl m
      · exact Nat.le_of_succ_le (ih (k + 1) m hm2)
    · rw [if_neg hp] at hm
      exact Nat.le_of_succ_le (ih (k + 1) m hm)

theorem collectIdx_pairwise (p : Row → Bool) :
    ∀ (k : Nat) (rs : List Row), (collectIdx p k rs).Pairwise (· < ·) := by
  intro k rs
  induction rs generalizing k with
  | nil => simp [collectIdx]
  | cons r rs ih =>
    simp only [collectIdx]
    by_cases hp : p r
    · rw [if_pos hp]
      refine List.pairwise_cons.mpr ⟨?_, ih (k + 1)⟩
      intro m hm
      exact Nat.lt_of_lt_of_le (Nat.lt_succ_self k) (collectIdx_ge p (k + 1) rs m hm)
    · rw [if_neg hp]
      exact ih (k + 1)

theorem collectIdx_mem (p : Row → Bool) (m : Nat) :
    ∀ (k : Nat) (rs : List Row),
      m ∈ collectIdx p k rs ↔ ∃ j, j < rs.length ∧ m = k + j ∧ p (rs.getD j []) = true := by
  intro k rs
  induction rs generalizing k with
  | nil => simp [collectIdx]
  | cons r rs ih =>
    simp only [collectIdx]
    by_cases hp : p r
    · rw [if_pos hp]
      constructor
      · intro hm
        rcases List.mem_cons.mp hm with rfl | hm2
        · exact ⟨0, by simp, by omega, by simpa using hp⟩
        · obtain ⟨j, hj, hmk, hpj⟩ := (ih (k + 1)).mp hm2
          exact ⟨j + 1, by simp [Nat.succ_lt_succ hj], by omega, by simpa using hpj⟩
      · rintro ⟨j, hj, rfl, hpj⟩
        cases j with
        | zero => simp
        | succ j =>
          refine List.mem_cons.mpr (Or.inr ((ih (k + 1)).mpr ⟨j, ?_, by omega, ?_⟩))
          · simpa using hj
          · simpa using hpj
    · rw [if_neg hp, ih (k + 1)]
      constructor
      · rintro ⟨j, hj, rfl, hpj⟩
        exact ⟨j + 1, by simp [Nat.succ_lt_succ hj], by omega, by simpa using hpj⟩
      · rintro ⟨j, hj, rfl, hpj⟩
        cases j with
        | zero => simp at hpj; exact absurd hpj hp
        | succ j => exact ⟨j, by simpa using hj, by omega, by simpa using hpj⟩

theorem collectIdx_map_getD (p : Row → Bool) :
    ∀ (k : Nat) (rs : List Row),
      (collectIdx p k rs).map (fun m => rs.getD (m - k) []) = rs.filter p := by
  intro k rs
  induction rs generalizing k with
  | nil => simp [collectIdx]
  | cons r rs ih =>
    simp only [collectIdx]
    have hcongr : (collectIdx p (k + 1) rs).map (fun m => (r :: rs).getD (m - k) [])
        = (collectIdx p (k + 1) rs).map (fun m => rs.getD (m - (k + 1)) []) := by
      refine List.map_congr_left ?_
      intro m hm
      have hge := collectIdx_ge p (k + 1) rs m hm
      have : m - k = (m - (k + 1)) + 1 := by omega
      rw [this]
      simp
    by_cases hp : p r
    · rw [if_pos hp, List.filter_cons_of_pos hp]
      simp only [List.map_cons, Nat.sub_self, List.getD_cons_zero]
      rw [hcongr, ih (k + 1)]
    · rw [if_neg hp, List.filter_cons_of_neg (by simpa using hp), hcongr, ih (k + 1)]

/-! ### Lemmas about `mergeLoop` -/

theorem mergeLoop_head (start prev : Nat) (l : List Nat) :
    ∃ e tl, mergeLoop start prev l = (start, e) :: tl ∧ prev < e := by
  induction l generalizing prev with
  | nil => exact ⟨prev + 1, [], rfl, Nat.lt_succ_self _⟩
  | cons r rest ih =>
    by_cases hr : r = prev + 1
    · simp only [mergeLoop, if_pos hr]
      obtain ⟨e, tl, he, hlt⟩ := ih r
      exact ⟨e, tl, he, by omega⟩
    · simp only [mergeLoop, if_neg hr]
      exact ⟨prev + 1, _, rfl, Nat.lt_succ_self _⟩

theorem mergeLoop_mem (x : Nat) :
    ∀ (l : List Nat) (start prev : Nat), List.Chain (· < ·) prev l → start ≤ prev →
      ((∃ p ∈ mergeLoop start prev l, p.1 ≤ x ∧ x < p.2) ↔ (start ≤ x ∧ x ≤ prev ∨ x ∈ l)) := by
  intro l
  induction l with
  | nil =>
    intro start prev _ _
    simp only [mergeLoop, List.mem_singleton, List.not_mem_nil, or_false]
    constructor
    · rintro ⟨p, rfl, h1, h2⟩; omega
    · intro h; exact ⟨(start, prev + 1), rfl, by omega, by omega⟩
  | cons r rest ih =>
    intro start prev hch hsp
    obtain ⟨hpr, hch2⟩ := List.chain_cons.mp hch
    simp only [mergeLoop]
    by_cases hr : r = prev + 1
    · rw [if_pos hr, ih start r hch2 (by omega)]
      constructor
      · rintro (⟨h1, h2⟩ | hm)
        · by_cases hx : x ≤ prev
          · exact Or.inl ⟨h1, hx⟩
          · exact Or.inr (List.mem_cons.mpr (Or.inl (by omega)))
        · exact Or.inr (List.mem_cons.mpr (Or.inr hm))
      · rintro (⟨h1, h2⟩ | hm)
        · exact Or.inl ⟨h1, by omega⟩
        · rcases List.mem_cons.mp hm with rfl | hm2
          · exact Or.inl ⟨by omega, by omega⟩
          · exact Or.inr hm2
    · rw [if_neg hr]
      have ihr := ih r r hch2 (Nat.le_refl r)
      constructor
      · rintro ⟨p, hp, hpx⟩
        rcases List.mem_cons.mp hp with rfl | hp2
        · exact Or.inl ⟨hpx.1, by have := hpx.2; simp at this ⊢; omega⟩
        · rcases ihr.mp ⟨p, hp2, hpx⟩ with ⟨h1, h2⟩ | hm
          · exact Or.inr (List.mem_cons.mpr (Or.inl (by omega)))
          · exact Or.inr (List.mem_cons.mpr (Or.inr hm))
      · rintro (⟨h1, h2⟩ | hm)
        · exact ⟨(start, prev + 1), List.mem_cons_self _ _, h1, by omega⟩
        · rcases List.mem_cons.mp hm with rfl | hm2
          · obtain ⟨p, hp, hpx⟩ := ihr.mpr (Or.inl ⟨Nat.le_refl x, Nat.le_refl x⟩)
            exact ⟨p, List.mem_cons.mpr (Or.inr hp), hpx⟩
          · obtain ⟨p, hp, hpx⟩ := ihr.mpr (Or.inr hm2)
            exact ⟨p, List.mem_cons.mpr (Or.inr hp), hpx⟩

theorem mergeLoop_sep :
    ∀ (l : List Nat) (start prev : Nat), List.Chain (· < ·) prev l → start ≤ prev →
      List.Chain' (fun p q : Nat × Nat => p.2 < q.1) (mergeLoop start prev l)
      ∧ ∀ p ∈ mergeLoop start prev l, p.1 < p.2 := by
  intro l
  induction l with
  | nil =>
    intro start prev _ hsp
    refine ⟨List.chain'_singleton _, ?_⟩
    rintro p hp
    rcases List.mem_singleton.mp hp with rfl
    simpa using by omega
  | cons r rest ih =>
    intro start prev hch hsp
    obtain ⟨hpr, hch2⟩ := List.chain_cons.mp hch
    simp only [mergeLoop]
    by_cases hr : r = prev + 1
    · rw [if_pos hr]
      exact ih start r hch2 (by omega)
    · rw [if_neg hr]
      obtain ⟨hch3, hne⟩ := ih r r hch2 (Nat.le_refl r)
      obtain ⟨e, tl, heq, hlt⟩ := mergeLoop_head r r rest
      constructor
      · rw [heq] at hch3 ⊢
        exact List.chain'_cons.mpr ⟨by simp; omega, hch3⟩
      · intro p hp
        rcases List.mem_cons.mp hp with rfl | hp2
        · simp; omega
        · exact hne p hp2

/-! ### Facts about `merge_contiguous_rows` -/

theorem merge_sorted_chain (l : List Nat) (hnd : l.Nodup) :
    ∀ x xs, List.insertionSort (· ≤ ·) l = x :: xs → List.Chain (· < ·) x xs := by
  intro x xs hs
  have hsorted : List.Sorted (· ≤ ·) (x :: xs) := by
    rw [← hs]; exact List.sorted_insertionSort _ l
  have hnd2 : (x :: xs).Nodup := by
    rw [← hs]; exact ((List.perm_insertionSort _ l).nodup_iff).mpr hnd
  have hlt : (x :: xs).Pairwise (· < ·) := by
    have := List.Pairwise.and hsorted hnd2
    exact this.imp (fun h => Nat.lt_of_le_of_ne h.1 h.2)
  exact List.chain_iff_pairwise.mpr hlt

theorem merge_mem_iff (l : List Nat) (hnd : l.Nodup) (x : Nat) :
    (∃ p ∈ merge_contiguous_rows l, p.1 ≤ x ∧ x < p.2) ↔ x ∈ l := by
  unfold merge_contiguous_rows
  have hperm := List.perm_insertionSort (· ≤ ·) l
  cases hs : List.insertionSort (· ≤ ·) l with
  | nil =>
    rw [hs] at hperm
    simp [List.Perm.symm hperm |>.mem_iff]
  | cons a as =>
    have hch := merge_sorted_chain l hnd a as hs
    rw [mergeLoop_mem x as a a hch (Nat.le_refl a)]
    have hmem : x ∈ l ↔ x ∈ a :: as := by
      rw [hs] at hperm
      exact (List.Perm.symm hperm).mem_iff
    rw [hmem]
    simp only [List.mem_cons]
    constructor
    · rintro (⟨h1, h2⟩ | hm)
      · exact Or.inl (by omega)
      · exact Or.inr hm
    · rintro (rfl | hm)
      · exact Or.inl ⟨Nat.le_refl x, Nat.le_refl x⟩
      · exact Or.inr hm

theorem merge_sep (l : List Nat) (hnd : l.Nodup) :
    List.Chain' (fun p q : Nat × Nat => p.2 < q.1) (merge_contiguous_rows l)
    ∧ ∀ p ∈ merge_contiguous_rows l, p.1 < p.2 := by
  unfold merge_contiguous_rows
  cases hs : List.insertionSort (· ≤ ·) l with
  | nil => simp
  | cons a as =>
    have hch := merge_sorted_chain l hnd a as hs
    exact mergeLoop_sep as a a hch (Nat.le_refl a)

theorem mergeLoop_lb :
    ∀ (l : List Nat) (start prev : Nat), List.Chain (· < ·) prev l → start ≤ prev →
      ∀ q ∈ mergeLoop start prev l, start ≤ q.1 := by
  intro l
  induction l with
  | nil =>
    intro start prev _ _ q hq
    rcases List.mem_singleton.mp hq with rfl
    exact Nat.le_refl _
  | cons r rest ih =>
    intro start prev hch hsp q hq
    obtain ⟨hpr, hch2⟩ := List.chain_cons.mp hch
    simp only [mergeLoop] at hq
    by_cases hr : r = prev + 1
    · rw [if_pos hr] at hq
      exact ih start r hch2 (by omega) q hq
    · rw [if_neg hr] at hq
      rcases List.mem_cons.mp hq with rfl | hq2
      · exact Nat.le_refl _
      · have := ih r r hch2 (Nat.le_refl r) q hq2
        omega

theorem mergeLoop_starts :
    ∀ (l : List Nat) (start prev : Nat), List.Chain (· < ·) prev l → start ≤ prev →
      (mergeLoop start prev l).Pairwise (fun p q : Nat × Nat => p.1 < q.1) := by
  intro l
  induction l with
  | nil => intro start prev _ _; simp [mergeLoop]
  | cons r rest ih =>
    intro start prev hch hsp
    obtain ⟨hpr, hch2⟩ := List.chain_cons.mp hch
    simp only [mergeLoop]
    by_cases hr : r = prev + 1
    · rw [if_pos hr]
      exact ih start r hch2 (by omega)
    · rw [if_neg hr]
      refine List.pairwise_cons.mpr ⟨?_, ih r r hch2 (Nat.le_refl r)⟩
      intro q hq
      have := mergeLoop_lb rest r r hch2 (Nat.le_refl r) q hq
      simp only []
      omega

theorem merge_starts (l : List Nat) (hnd : l.Nodup) :
    (merge_contiguous_rows l).Pairwise (fun p q : Nat × Nat => p.1 < q.1) := by
  unfold merge_contiguous_rows
  cases hs : List.insertionSort (· ≤ ·) l with
  | nil => simp
  | cons a as =>
    have hch := merge_sorted_chain l hnd a as hs
    exact mergeLoop_starts as a a hch (Nat.le_refl a)

/-! ### Facts about the emitted request list -/

theorem rowsToDeleteIdx_nodup (parse : Str → Option DT) (rows : List Row) (cutoff : DT) :
    (rowsToDeleteIdx parse rows cutoff).Nodup := by
  unfold rowsToDeleteIdx
  by_cases h : rows.length ≤ 1
  · rw [if_pos h]; exact List.nodup_nil
  · rw [if_neg h]
    exact (collectIdx_pairwise _ 1 _).imp (fun h2 => Nat.ne_of_lt h2)

theorem deleteRangesSorted_desc (parse : Str → Option DT) (rows : List Row) (cutoff : DT) :
    (deleteRangesSorted parse rows cutoff).Pairwise (fun p q : Nat × Nat => q.1 < p.1) := by
  unfold deleteRangesSorted
  have hstarts := merge_starts _ (rowsToDeleteIdx_nodup parse rows cutoff)
  have hndf : ((merge_contiguous_rows (rowsToDeleteIdx parse rows cutoff)).map Prod.fst).Nodup :=
    List.pairwise_map.mpr (hstarts.imp (fun h => Nat.ne_of_lt h))
  have hperm := List.perm_insertionSort descLex
    (merge_contiguous_rows (rowsToDeleteIdx parse rows cutoff))
  have hnds := ((hperm.map Prod.fst).nodup_iff).mpr hndf
  have hne : (List.insertionSort descLex
      (merge_contiguous_rows (rowsToDeleteIdx parse rows cutoff))).Pairwise
      (fun p q : Nat × Nat => p.1 ≠ q.1) := List.pairwise_map.mp hnds
  have hsor : (List.insertionSort descLex
      (merge_contiguous_rows (rowsToDeleteIdx parse rows cutoff))).Pairwise descLex :=
    List.sorted_insertionSort descLex _
  refine (hsor.and hne).imp ?_
  intro a b h
  rcases h with ⟨hd, hne2⟩
  unfold descLex at hd
  omega

theorem filterMap_clamp (T : Nat) :
    ∀ L : List (Nat × Nat),
      L.filterMap (fun p => if p.1 < T then some (p.1, min p.2 T) else none)
        = (L.filter (fun p => decide (p.1 < T))).map (fun p => (p.1, min p.2 T)) := by
  intro L
  induction L with
  | nil => rfl
  | cons a L ih =>
    by_cases h : a.1 < T
    · simp [List.filterMap_cons, List.filter_cons, h, ih]
    · simp [List.filterMap_cons, List.filter_cons, h, ih]

/-! ### Claim theorems for the Row Retention Sweeper -/

/-- Claim C1: every run of the Sweeper emits its delete-range instructions in
strictly descending order of range start, so applying them in order against a
positional store never shifts a not-yet-deleted target range. -/
theorem claim_C1 (parse : Str → Option DT) (rows : List Row) (cutoff : DT) :
    (deleteRequests parse rows cutoff).Pairwise (fun p q : Nat × Nat => q.1 < p.1) := by
  unfold deleteRequests
  rw [filterMap_clamp]
  refine List.pairwise_map.mpr ?_
  exact ((deleteRangesSorted_desc parse rows cutoff).filter _).imp (fun h => h)

/-- Claim C2: `merge_contiguous_rows` coalesces a duplicate-free index list
into half-open ranges whose union is exactly the input set, the ranges are
nonempty and pairwise separated (maximal coalescing), and the three
documented examples evaluate as stated. -/
theorem claim_C2 (l : List Nat) (hnd : l.Nodup) :
    (∀ x, x ∈ l ↔ ∃ p ∈ merge_contiguous_rows l, p.1 ≤ x ∧ x < p.2)
    ∧ (∀ p ∈ merge_contiguous_rows l, p.1 < p.2)
    ∧ List.Chain' (fun p q : Nat × Nat => p.2 < q.1) (merge_contiguous_rows l)
    ∧ merge_contiguous_rows [2, 3, 4, 7, 8] = [(2, 5), (7, 9)]
    ∧ merge_contiguous_rows ([] : List Nat) = []
    ∧ merge_contiguous_rows [5] = [(5, 6)] := by
  obtain ⟨hch, hne⟩ := merge_sep l hnd
  exact ⟨fun x => (merge_mem_iff l hnd x).symm, hne, hch, by decide, by decide, by decide⟩

theorem claim_C2_witness :
    ([2, 3, 4, 7, 8] : List Nat).Nodup
    ∧ ((∀ x, x ∈ [2, 3, 4, 7, 8] ↔
          ∃ p ∈ merge_contiguous_rows [2, 3, 4, 7, 8], p.1 ≤ x ∧ x < p.2)
      ∧ (∀ p ∈ merge_contiguous_rows [2, 3, 4, 7, 8], p.1 < p.2)
      ∧ List.Chain' (fun p q : Nat × Nat => p.2 < q.1) (merge_contiguous_rows [2, 3, 4, 7, 8])
      ∧ merge_contiguous_rows [2, 3, 4, 7, 8] = [(2, 5), (7, 9)]
      ∧ merge_contiguous_rows ([] : List Nat) = []
      ∧ merge_contiguous_rows [5] = [(5, 6)]) :=
  ⟨by decide, claim_C2 [2, 3, 4, 7, 8] (by decide)⟩

/-- Spelled-out deletion/archival condition of one stored row. -/
theorem rowOld_iff (parse : Str → Option DT) (cutoff : DT) (row : Row) :
    rowOld parse cutoff row = true ↔
      dateColIndex < row.length ∧ pstrip (row.getD dateColIndex []) ≠ [] ∧
      ∃ dt, parse (pstrip (row.getD dateColIndex [])) = some dt ∧
        instSecs (attachIST dt) < instSecs cutoff := by
  unfold rowOld
  by_cases h1 : row.length ≤ dateColIndex
  · rw [if_pos h1]
    simp only [Bool.false_eq_true, false_iff]
    rintro ⟨h2, -⟩
    omega
  · rw [if_neg h1]
    by_cases h2 : pstrip (row.getD dateColIndex []) = []
    · rw [if_pos h2]
      simp only [Bool.false_eq_true, false_iff]
      rintro ⟨-, h3, -⟩
      exact h3 h2
    · rw [if_neg h2]
      cases hp : parse (pstrip (row.getD dateColIndex [])) with
      | none =>
        simp only [Bool.false_eq_true, false_iff]
        rintro ⟨-, -, dt, hdt, -⟩
        simp [hp] at hdt
      | some dt =>
        simp only [decide_eq_true_eq]
        constructor
        · intro hlt
          exact ⟨by omega, h2, dt, rfl, hlt⟩
        · rintro ⟨-, -, dt2, hdt2, hlt⟩
          have h3 := Option.some.inj hdt2
          rw [h3]
          exact hlt

/-- Claim C3: a data row (header excluded, 0-based table position `k = j+1`
for data position `j`) is marked for deletion, and archived, exactly when its
date cell exists, strips to a non-empty string, parses, and the parsed date
is strictly older than the cutoff; a row whose parsed date equals the cutoff
instant is retained, as is any row with a missing or unparsable date. -/
theorem claim_C3 (parse : Str → Option DT) (rows : List Row) (cutoff : DT) :
    (∀ k, k ∈ rowsToDeleteIdx parse rows cutoff ↔
      ∃ j, j < (rows.drop 1).length ∧ k = j + 1 ∧
        dateColIndex < ((rows.drop 1).getD j []).length ∧
        pstrip (((rows.drop 1).getD j []).getD dateColIndex []) ≠ [] ∧
        ∃ dt, parse (pstrip (((rows.drop 1).getD j []).getD dateColIndex [])) = some dt ∧
          instSecs (attachIST dt) < instSecs cutoff)
    ∧ rowsToArchive parse rows cutoff
        = (rowsToDeleteIdx parse rows cutoff).map (fun k => (rows.drop 1).getD (k - 1) [])
    ∧ (∀ k dt, k ∈ rowsToDeleteIdx parse rows cutoff →
        parse (pstrip (((rows.drop 1).getD (k - 1) []).getD dateColIndex [])) = some dt →
        instSecs (attachIST dt) ≠ instSecs cutoff) := by
  have hmem : ∀ k, k ∈ rowsToDeleteIdx parse rows cutoff ↔
      ∃ j, j < (rows.drop 1).length ∧ k = j + 1 ∧
        dateColIndex < ((rows.drop 1).getD j []).length ∧
        pstrip (((rows.drop 1).getD j []).getD dateColIndex []) ≠ [] ∧
        ∃ dt, parse (pstrip (((rows.drop 1).getD j []).getD dateColIndex [])) = some dt ∧
          instSecs (attachIST dt) < instSecs cutoff := by
    intro k
    unfold rowsToDeleteIdx
    by_cases h : rows.length ≤ 1
    · rw [if_pos h]
      simp only [List.not_mem_nil, false_iff]
      rintro ⟨j, hj, -⟩
      have : (rows.drop 1).length = rows.length - 1 := List.length_drop 1 rows
      omega
    · rw [if_neg h, collectIdx_mem _ k 1 (rows.drop 1)]
      constructor
      · rintro ⟨j, hj, rfl, hpj⟩
        obtain ⟨ha, hb, dt, hdt, hlt⟩ := (rowOld_iff parse cutoff _).mp hpj
        exact ⟨j, hj, by omega, ha, hb, dt, hdt, hlt⟩
      · rintro ⟨j, hj, rfl, ha, hb, dt, hdt, hlt⟩
        exact ⟨j, hj, by omega, (rowOld_iff parse cutoff _).mpr ⟨ha, hb, dt, hdt, hlt⟩⟩
  refine ⟨hmem, ?_, ?_⟩
  · unfold rowsToArchive rowsToDeleteIdx
    by_cases h : rows.length ≤ 1
    · rw [if_pos h, if_pos h]
      rfl
    · rw [if_neg h, if_neg h]
      have := collectIdx_map_getD (rowOld parse cutoff) 1 (rows.drop 1)
      exact this.symm
  · intro k dt hk hdt
    obtain ⟨j, hj, rfl, -, -, dt2, hdt2, hlt⟩ := (hmem _).mp hk
    have hj2 : j + 1 - 1 = j := by omega
    rw [hj2] at hdt
    have h3 := Option.some.inj (hdt2.symm.trans hdt)
    rw [← h3]
    omega

/-- Claim C10: every emitted delete range lies within the bounds of the table
snapshot: `start < totalRows` and `start < end ≤ totalRows`. -/
theorem claim_C10 (parse : Str → Option DT) (rows : List Row) (cutoff : DT) :
    ∀ p ∈ deleteRequests parse rows cutoff,
      p.1 < rows.length ∧ p.1 < p.2 ∧ p.2 ≤ rows.length := by
  intro p hp
  unfold deleteRequests at hp
  obtain ⟨q, hq, hfq⟩ := List.mem_filterMap.mp hp
  by_cases h : q.1 < rows.length
  · rw [if_pos h] at hfq
    have hpq := Option.some.inj hfq
    have hqM : q ∈ merge_contiguous_rows (rowsToDeleteIdx parse rows cutoff) := by
      unfold deleteRangesSorted at hq
      exact (List.mem_insertionSort descLex).mp hq
    have h12 := (merge_sep _ (rowsToDeleteIdx_nodup parse rows cutoff)).2 q hqM
    rw [← hpq]
    refine ⟨h, ?_, ?_⟩
    · show q.1 < min q.2 rows.length
      omega
    · show min q.2 rows.length ≤ rows.length
      omega
  · rw [if_neg h] at hfq
    exact absurd hfq (by simp)

/-- Concrete parser fixture: every string parses to 2020-01-01 naive. -/
def parseW : Str → Option DT := fun _ => some ⟨2020, 1, 1, 0, 0, 0, none⟩

/-- Concrete two-row table fixture (header plus one dated data row). -/
def rowsW : List Row := [[['h']], [['s'], ['t'], ['d']]]

/-- Concrete aware cutoff fixture (2025-01-01 IST). -/
def cutoffW : DT := ⟨2025, 1, 1, 0, 0, 0, some 330⟩

theorem claim_C10_witness :
    ((1, 2) ∈ deleteRequests parseW rowsW cutoffW)
    ∧ ((1 : Nat) < rowsW.length ∧ (1 : Nat) < 2 ∧ 2 ≤ rowsW.length) :=
  ⟨by decide, claim_C10 parseW rowsW cutoffW (1, 2) (by decide)⟩

/-! ## `scraper.py`: Link/Retention Ledger and Orchestrator -/

/-- An extracted article record (shape of `extract_article`'s result dict).
Optional fields are `none` when the extraction found nothing. -/
structure Article where
  source : Str
  title : Option Str
  link : Option Str
  dateText : Str
  snippet : Option Str
  author : Option Str
  image : Option Str
  publishedDate : Option DT
  scrapedAt : Str
deriving DecidableEq, Repr

/-- Python truthiness test used by `is_valid`: `None` and `""` are falsy. -/
def pyFalsy (o : Option Str) : Bool := decide (o.getD [] = [])

/-- Python `link.strip().rstrip("/")`. -/
def normLink (s : Str) : Str := rstripSlash (pstrip s)

/-- One iteration of the `load_existing_links` row loop (scraper.py lines
56-69).  `parse` models `dateutil.parser.parse`; `none` models a raised
exception.  A parse result carrying a timezone makes `parsed_date >= cutoff`
raise (aware vs naive comparison), which `except: continue` swallows, so the
row is skipped.  Naive-naive `>=` is compared on `instSecs`. -/
def loadStep (parse : Str → Option DT) (cutoff : DT) (links : Finset Str) (row : Row) :
    Finset Str :=
  if row.length < 4 then links
  else if normLink (row.getD 3 []) = [] then links
  else if pstrip (row.getD 2 []) = [] then links
  else match parse (pstrip (row.getD 2 [])) with
    | none => links
    | some d =>
      if d.tz.isSome then links
      else if instSecs cutoff ≤ instSecs d then insert (normLink (row.getD 3 [])) links
      else links

/-- Function `load_existing_links` (scraper.py lines 49-70), with
`cutoff = now - timedelta(days=days_limit)` passed explicitly. -/
def load_existing_links (parse : Str → Option DT) (rows : List Row) (cutoff : DT) :
    Finset Str :=
  if rows.length ≤ 1 then ∅
  else (rows.drop 1).foldl (loadStep parse cutoff) ∅

/-- Method `SheetNewsScraper.is_valid` (scraper.py lines 256-265). -/
def is_valid (links : Finset Str) (a : Article) : Bool :=
  if pyFalsy a.title || pyFalsy a.link then false
  else if (a.title.getD []).length < 6 then false
  else if ! startsWithStr ("http".toList) (a.link.getD []) then false
  else if normLink (a.link.getD []) ∈ links then false
  else true

/-- Per-container accept decision of `scrape_site` (lines 193-201):
`is_valid`, then the freshness check `published_date < cutoff_time`.
A timezone-aware `publishedDate` compared against the naive cutoff raises
`TypeError`, and the surrounding `except Exception: continue` skips the
element, so such a record is never accepted. -/
def acceptArticle (links : Finset Str) (cutoffFresh : DT) (a : Article) : Bool :=
  if ! is_valid links a then false
  else match a.publishedDate with
    | none => true
    | some d => if d.tz.isSome then false else ! decide (instSecs d < instSecs cutoffFresh)

/-- The row appended for an accepted article (`save_articles`, lines
275-284), in the sheet's column order. -/
def rowOf (a : Article) : Row :=
  [a.source, a.title.getD [], a.dateText, normLink (a.link.getD []),
   a.author.getD [], a.snippet.getD [], a.image.getD [], a.scrapedAt]

/-- One step of the `save_articles` loop (lines 271-298) over the state
(link set, sheet rows, saved count): skip when the normalized link is
already present, else append the row and record the link.  The 429
retry loop always terminates with a successful append in this model. -/
def saveStep (st : Finset Str × List Row × Nat) (a : Article) : Finset Str × List Row × Nat :=
  if normLink (a.link.getD []) ∈ st.1 then st
  else (insert (normLink (a.link.getD [])) st.1, st.2.1 ++ [rowOf a], st.2.2 + 1)

/-- Function `save_articles`: refresh the link set from the sheet, then run the
per-article save loop; returns the updated sheet and the saved count. -/
def save_articles (parse : Str → Option DT) (store : List Row) (now : DT)
    (arts : List Article) : List Row × Nat :=
  let links := load_existing_links parse store (subSeconds now 172800)
  let st := arts.foldl saveStep (links, store, 0)
  (st.2.1, st.2.2)

/-- One full Orchestrator run over one site with `now` frozen: load the
recent-link set (module line 72), keep the first `limit` extracted records
that pass `is_valid` and the freshness check (`scrape_site`), then persist
them (`save_articles`).  `CUT_OFF_HOURS = 25` gives the 90000-second
freshness cutoff; `days_limit = 2` gives the 172800-second recency window. -/
def runOnce (parse : Str → Option DT) (store : List Row) (recs : List Article)
    (now : DT) (limit : Nat) : List Row × Nat :=
  let links0 := load_existing_links parse store (subSeconds now 172800)
  let accepted := (recs.take limit).filter (acceptArticle links0 (subSeconds now 90000))
  save_articles parse store now accepted

/-! ### Characterization of the recent-link set -/

theorem loadStep_mem (parse : Str → Option DT) (cutoff : DT) (acc : Finset Str) (row : Row)
    (k : Str) :
    k ∈ loadStep parse cutoff acc row ↔ k ∈ acc ∨
      (4 ≤ row.length ∧ normLink (row.getD 3 []) ≠ [] ∧ pstrip (row.getD 2 []) ≠ []
        ∧ (∃ d, parse (pstrip (row.getD 2 [])) = some d ∧ d.tz = none
            ∧ instSecs cutoff ≤ instSecs d)
        ∧ k = normLink (row.getD 3 [])) := by
  unfold loadStep
  by_cases h1 : row.length < 4
  · rw [if_pos h1]
    constructor
    · exact Or.inl
    · rintro (hk | ⟨h4, -⟩)
      · exact hk
      · omega
  · rw [if_neg h1]
    by_cases h2 : normLink (row.getD 3 []) = []
    · rw [if_pos h2]
      constructor
      · exact Or.inl
      · rintro (hk | ⟨-, h5, -⟩)
        · exact hk
        · exact absurd h2 h5
    · rw [if_neg h2]
      by_cases h3 : pstrip (row.getD 2 []) = []
      · rw [if_pos h3]
        constructor
        · exact Or.inl
        · rintro (hk | ⟨-, -, h6, -⟩)
          · exact hk
          · exact absurd h3 h6
      · rw [if_neg h3]
        cases hp : parse (pstrip (row.getD 2 [])) with
        | none =>
          constructor
          · exact Or.inl
          · rintro (hk | ⟨-, -, -, ⟨d, hd, -⟩, -⟩)
            · exact hk
            · simp [hp] at hd
        | some d =>
          dsimp only
          by_cases h4 : d.tz.isSome
          · rw [if_pos h4]
            constructor
            · exact Or.inl
            · rintro (hk | ⟨-, -, -, ⟨d2, hd2, htz, -⟩, -⟩)
              · exact hk
              · have := Option.some.inj hd2
                subst this
                rw [htz] at h4
                simp at h4
          · rw [if_neg h4]
            by_cases h5 : instSecs cutoff ≤ instSecs d
            · rw [if_pos h5]
              rw [Finset.mem_insert]
              constructor
              · rintro (rfl | hk)
                · exact Or.inr ⟨by omega, h2, h3,
                    ⟨d, rfl, Option.not_isSome_iff_eq_none.mp h4, h5⟩, rfl⟩
                · exact Or.inl hk
              · rintro (hk | ⟨-, -, -, -, rfl⟩)
                · exact Or.inr hk
                · exact Or.inl rfl
            · rw [if_neg h5]
              constructor
              · exact Or.inl
              · rintro (hk | ⟨-, -, -, ⟨d2, hd2, -, hle⟩, -⟩)
                · exact hk
                · have := Option.some.inj hd2
                  subst this
                  exact absurd hle h5

theorem loadFold_mem (parse : Str → Option DT) (cutoff : DT) :
    ∀ (l : List Row) (acc : Finset Str) (k : Str),
      k ∈ l.foldl (loadStep parse cutoff) acc ↔ k ∈ acc ∨
        ∃ row ∈ l, 4 ≤ row.length ∧ normLink (row.getD 3 []) ≠ []
          ∧ pstrip (row.getD 2 []) ≠ []
          ∧ (∃ d, parse (pstrip (row.getD 2 [])) = some d ∧ d.tz = none
              ∧ instSecs cutoff ≤ instSecs d)
          ∧ k = normLink (row.getD 3 []) := by
  intro l
  induction l with
  | nil => intro acc k; simp
  | cons r l ih =>
    intro acc k
    rw [List.foldl_cons, ih, loadStep_mem]
    constructor
    · rintro ((hk | hr) | ⟨row, hrow, hc⟩)
      · exact Or.inl hk
      · exact Or.inr ⟨r, List.mem_cons_self _ _, hr.1, hr.2.1, hr.2.2.1, hr.2.2.2.1, hr.2.2.2.2⟩
      · exact Or.inr ⟨row, List.mem_cons.mpr (Or.inr hrow), hc⟩
    · rintro (hk | ⟨row, hrow, hc⟩)
      · exact Or.inl (Or.inl hk)
      · rcases List.mem_cons.mp hrow with rfl | hrow2
        · exact Or.inl (Or.inr hc)
        · exact Or.inr ⟨row, hrow2, hc⟩

theorem load_mem_iff (parse : Str → Option DT) (rows : List Row) (cutoff : DT) (k : Str) :
    k ∈ load_existing_links parse rows cutoff ↔
      ∃ row ∈ rows.drop 1, 4 ≤ row.length ∧ normLink (row.getD 3 []) ≠ []
        ∧ pstrip (row.getD 2 []) ≠ []
        ∧ (∃ d, parse (pstrip (row.getD 2 [])) = some d ∧ d.tz = none
            ∧ instSecs cutoff ≤ instSecs d)
        ∧ k = normLink (row.getD 3 []) := by
  unfold load_existing_links
  by_cases h : rows.length ≤ 1
  · rw [if_pos h]
    have hd : rows.drop 1 = [] := List.drop_eq_nil_of_le h
    rw [hd]
    simp
  · rw [if_neg h, loadFold_mem]
    simp

/-! ### Characterization of the accept decision -/

theorem is_valid_iff (links : Finset Str) (a : Article) :
    is_valid links a = true ↔
      a.title.getD [] ≠ [] ∧ 6 ≤ (a.title.getD []).length ∧ a.link.getD [] ≠ []
      ∧ startsWithStr ("http".toList) (a.link.getD []) = true
      ∧ normLink (a.link.getD []) ∉ links := by
  unfold is_valid pyFalsy
  split_ifs with hf h6 hs hm
  · simp only [Bool.or_eq_true, decide_eq_true_eq] at hf
    simp only [Bool.false_eq_true, false_iff]
    rintro ⟨ht, -, hl, -⟩
    rcases hf with hf | hf
    exacts [ht hf, hl hf]
  · simp only [Bool.false_eq_true, false_iff]
    rintro ⟨-, h6', -⟩
    omega
  · simp only [Bool.false_eq_true, false_iff]
    rintro ⟨-, -, -, hsw, -⟩
    rw [hsw] at hs
    simp at hs
  · simp only [Bool.false_eq_true, false_iff]
    rintro ⟨-, -, -, -, hmem⟩
    exact hmem hm
  · simp only [Bool.or_eq_true, decide_eq_true_eq, not_or] at hf
    have hs2 : startsWithStr ("http".toList) (a.link.getD []) = true := by
      revert hs
      cases startsWithStr ("http".toList) (a.link.getD []) <;> simp
    constructor
    · intro _
      exact ⟨hf.1, by omega, hf.2, hs2, hm⟩
    · intro _
      rfl

theorem acceptArticle_iff (links : Finset Str) (cutoffFresh : DT) (a : Article) :
    acceptArticle links cutoffFresh a = true ↔
      a.title.getD [] ≠ [] ∧ 6 ≤ (a.title.getD []).length ∧ a.link.getD [] ≠ []
      ∧ startsWithStr ("http".toList) (a.link.getD []) = true
      ∧ normLink (a.link.getD []) ∉ links
      ∧ ∀ d, a.publishedDate = some d → d.tz = none ∧ ¬ instSecs d < instSecs cutoffFresh := by
  unfold acceptArticle
  by_cases hv : is_valid links a
  · rw [if_neg (by rw [hv]; simp)]
    cases hpd : a.publishedDate with
    | none =>
      dsimp only
      constructor
      · intro _
        obtain ⟨h1, h2, h3, h4, h5⟩ := (is_valid_iff links a).mp hv
        refine ⟨h1, h2, h3, h4, h5, ?_⟩
        intro d hd
        exact absurd hd (by simp)
      · intro _
        rfl
    | some d =>
      dsimp only
      by_cases htz : d.tz.isSome
      · rw [if_pos htz]
        simp only [Bool.false_eq_true, false_iff]
        rintro ⟨-, -, -, -, -, hall⟩
        obtain ⟨hn, -⟩ := hall d rfl
        rw [hn] at htz
        simp at htz
      · rw [if_neg htz]
        constructor
        · intro hb
          obtain ⟨h1, h2, h3, h4, h5⟩ := (is_valid_iff links a).mp hv
          refine ⟨h1, h2, h3, h4, h5, ?_⟩
          intro d2 hd2
          have hdd := Option.some.inj hd2
          subst hdd
          refine ⟨Option.not_isSome_iff_eq_none.mp htz, ?_⟩
          simpa using hb
        · rintro ⟨-, -, -, -, -, hall⟩
          obtain ⟨-, hlt⟩ := hall d rfl
          simpa using hlt
  · have hvf : is_valid links a = false := by
      revert hv
      cases is_valid links a <;> simp
    rw [if_pos (by rw [hvf]; rfl)]
    simp only [Bool.false_eq_true, false_iff]
    rintro ⟨h1, h2, h3, h4, h5, -⟩
    exact hv ((is_valid_iff links a).mpr ⟨h1, h2, h3, h4, h5⟩)

/-! ### Fixtures and claim theorems for the Ledger and validity filter -/

/-- A naive reference time fixture. -/
def nowW : DT := ⟨2025, 6, 1, 10, 0, 0, none⟩

/-- A stored row with a non-empty link and an empty date cell. -/
def rowC4 : Row := [['s'], ['t'], [], "http://a".toList]

/-- A store holding a header row and `rowC4`. -/
def storeC4 : List Row := [[['h']], rowC4]

/-- Claim C4 counterexample: a stored row with a non-empty link and a
missing (empty) date cell is NOT included in the deduplication set, contrary
to the claimed conservative inclusion. -/
theorem claim_C4_counterexample :
    rowC4 ∈ storeC4.drop 1 ∧ normLink (rowC4.getD 3 []) ≠ []
    ∧ pstrip (rowC4.getD 2 []) = []
    ∧ normLink (rowC4.getD 3 [])
        ∉ load_existing_links (fun _ => none) storeC4 (subSeconds nowW 172800) := by
  decide

/-- Claim C4 (amended): `buildRecentLinkSet` contains exactly the normalized
links of data rows with at least four cells, a non-empty link, and a
non-empty date cell that parses to a naive datetime at or after the recency
cutoff.  Rows with a missing or unparsable date are excluded, not included. -/
theorem claim_C4_amended (parse : Str → Option DT) (rows : List Row) (cutoff : DT) (k : Str) :
    k ∈ load_existing_links parse rows cutoff ↔
      ∃ row ∈ rows.drop 1, 4 ≤ row.length ∧ normLink (row.getD 3 []) ≠ []
        ∧ pstrip (row.getD 2 []) ≠ []
        ∧ (∃ d, parse (pstrip (row.getD 2 [])) = some d ∧ d.tz = none
            ∧ instSecs cutoff ≤ instSecs d)
        ∧ k = normLink (row.getD 3 []) :=
  load_mem_iff parse rows cutoff k

/-- A record valid except for its 5-character title. -/
def artLen5 : Article :=
  ⟨['s'], some ("abcde".toList), some ("http://x.com/a".toList), [], none, none, none, none, []⟩

/-- The same record with a 6-character title. -/
def artLen6 : Article :=
  ⟨['s'], some ("abcdef".toList), some ("http://x.com/a".toList), [], none, none, none, none, []⟩

/-- A valid record whose published date is timezone-aware and far newer than
any plausible freshness cutoff. -/
def artAware : Article :=
  ⟨['s'], some ("abcdef".toList), some ("http://x.com/a".toList), [], none, none, none,
    some ⟨2025, 12, 31, 12, 0, 0, some 330⟩, []⟩

/-- Claim C9 counterexample: a record that meets every condition of the
claim (valid title and link, link not in the set, published date not older
than the cutoff) is nevertheless rejected, because its timezone-aware
published date makes the comparison against the naive cutoff raise, and the
`except: continue` skips the record. -/
theorem claim_C9_counterexample :
    acceptArticle ∅ nowW artAware = false
    ∧ artAware.title.getD [] ≠ [] ∧ 6 ≤ (artAware.title.getD []).length
    ∧ artAware.link.getD [] ≠ []
    ∧ startsWithStr ("http".toList) (artAware.link.getD []) = true
    ∧ normLink (artAware.link.getD []) ∉ (∅ : Finset Str)
    ∧ artAware.publishedDate = some ⟨2025, 12, 31, 12, 0, 0, some 330⟩
    ∧ ¬ instSecs (DT.mk 2025 12 31 12 0 0 (some 330)) < instSecs nowW := by
  decide

/-- Claim C9 (amended): a record is accepted iff its title is present with
length at least 6, its link is present and starts with `http`, its
normalized link is not in the recent-link set, and its parsed published
date, when present, is timezone-naive and not strictly older than the
freshness cutoff; a title of length 5 is rejected and one of length 6 is
accepted, all else valid. -/
theorem claim_C9_amended (links : Finset Str) (cutoffFresh : DT) (a : Article) :
    (acceptArticle links cutoffFresh a = true ↔
      a.title.getD [] ≠ [] ∧ 6 ≤ (a.title.getD []).length ∧ a.link.getD [] ≠ []
      ∧ startsWithStr ("http".toList) (a.link.getD []) = true
      ∧ normLink (a.link.getD []) ∉ links
      ∧ ∀ d, a.publishedDate = some d → d.tz = none ∧ ¬ instSecs d < instSecs cutoffFresh)
    ∧ acceptArticle ∅ nowW artLen5 = false
    ∧ acceptArticle ∅ nowW artLen6 = true :=
  ⟨acceptArticle_iff links cutoffFresh a, by decide, by decide⟩

/-! ### Orchestrator idempotence (claim C5) -/

theorem dropWhile_append_keep (p : Char → Bool) (c : Char) (hc : p c = false) :
    ∀ l : Str, ∃ u, List.dropWhile p (l ++ [c]) = u ++ [c] := by
  intro l
  induction l with
  | nil => exact ⟨[], by simp [List.dropWhile_cons, hc]⟩
  | cons a l ih =>
    by_cases ha : p a
    · obtain ⟨u, hu⟩ := ih
      exact ⟨u, by simp [List.dropWhile_cons, ha, hu]⟩
    · exact ⟨a :: l, by simp [List.dropWhile_cons, ha]⟩

theorem pstrip_cons_head (c : Char) (t : Str) (hc : isSpacePy c = false) :
    ∃ u, pstrip (c :: t) = c :: u := by
  unfold pstrip
  have h1 : List.dropWhile isSpacePy (c :: t) = c :: t := by
    simp [List.dropWhile_cons, hc]
  rw [h1, List.reverse_cons]
  obtain ⟨u, hu⟩ := dropWhile_append_keep isSpacePy c hc t.reverse
  rw [hu]
  exact ⟨u.reverse, by simp⟩

theorem rstripSlash_cons_head (c : Char) (t : Str) (hc : ¬c = '/') :
    ∃ u, rstripSlash (c :: t) = c :: u := by
  unfold rstripSlash
  rw [List.reverse_cons]
  obtain ⟨u, hu⟩ := dropWhile_append_keep (fun x => decide (x = '/')) c (by simp [hc]) t.reverse
  rw [hu]
  exact ⟨u.reverse, by simp⟩

theorem normLink_cons_ne (c : Char) (t : Str) (h1 : isSpacePy c = false) (h2 : ¬c = '/') :
    normLink (c :: t) ≠ [] := by
  unfold normLink
  obtain ⟨u, hu⟩ := pstrip_cons_head c t h1
  rw [hu]
  obtain ⟨v, hv⟩ := rstripSlash_cons_head c u h2
  rw [hv]
  simp

theorem startsWith_head (c : Char) (cs s : Str) (h : startsWithStr (c :: cs) s = true) :
    ∃ t, s = c :: t := by
  cases s with
  | nil => simp [startsWithStr, List.isPrefixOf] at h
  | cons b bs =>
    simp only [startsWithStr, List.isPrefixOf, Bool.and_eq_true, beq_iff_eq] at h
    exact ⟨bs, by rw [h.1]⟩

theorem accepted_link_ne (links : Finset Str) (cf : DT) (a : Article)
    (h : acceptArticle links cf a = true) : normLink (a.link.getD []) ≠ [] := by
  obtain ⟨-, -, -, h4, -⟩ := (acceptArticle_iff links cf a).mp h
  obtain ⟨t, ht⟩ := startsWith_head 'h' _ _ h4
  rw [ht]
  exact normLink_cons_ne 'h' t (by decide) (by decide)

/-- Structure of the `save_articles` fold: the sheet grows by rows of the
processed articles, and each processed article's normalized link was either
already in the starting set or is the key of some appended row. -/
theorem saveFold_main :
    ∀ (arts : List Article) (links : Finset Str) (store0 : List Row) (n : Nat),
      ∃ extra,
        (arts.foldl saveStep (links, store0, n)).2.1 = store0 ++ extra
        ∧ (∀ r ∈ extra, ∃ b ∈ arts, r = rowOf b)
        ∧ (∀ a ∈ arts, normLink (a.link.getD []) ∈ links
            ∨ ∃ b ∈ arts, normLink (b.link.getD []) = normLink (a.link.getD [])
                ∧ rowOf b ∈ extra) := by
  intro arts
  induction arts with
  | nil =>
    intro links store0 n
    exact ⟨[], by simp, by simp, by simp⟩
  | cons c arts ih =>
    intro links store0 n
    rw [List.foldl_cons]
    by_cases hc : normLink (c.link.getD []) ∈ links
    · have hstep : saveStep (links, store0, n) c = (links, store0, n) := by
        unfold saveStep
        rw [if_pos hc]
      rw [hstep]
      obtain ⟨extra, he, hr, hm⟩ := ih links store0 n
      refine ⟨extra, he, ?_, ?_⟩
      · intro r hrr
        obtain ⟨b, hb, hbe⟩ := hr r hrr
        exact ⟨b, List.mem_cons.mpr (Or.inr hb), hbe⟩
      · intro a ha
        rcases List.mem_cons.mp ha with rfl | ha2
        · exact Or.inl hc
        · rcases hm a ha2 with h | ⟨b, hb, hkey, hrow⟩
          · exact Or.inl h
          · exact Or.inr ⟨b, List.mem_cons.mpr (Or.inr hb), hkey, hrow⟩
    · have hstep : saveStep (links, store0, n) c
          = (insert (normLink (c.link.getD [])) links, store0 ++ [rowOf c], n + 1) := by
        unfold saveStep
        rw [if_neg hc]
      rw [hstep]
      obtain ⟨extra, he, hr, hm⟩ :=
        ih (insert (normLink (c.link.getD [])) links) (store0 ++ [rowOf c]) (n + 1)
      refine ⟨rowOf c :: extra, by rw [he]; simp, ?_, ?_⟩
      · intro r hrr
        rcases List.mem_cons.mp hrr with rfl | hrr2
        · exact ⟨c, List.mem_cons_self _ _, rfl⟩
        · obtain ⟨b, hb, hbe⟩ := hr r hrr2
          exact ⟨b, List.mem_cons.mpr (Or.inr hb), hbe⟩
      · intro a ha
        rcases List.mem_cons.mp ha with rfl | ha2
        · exact Or.inr ⟨a, List.mem_cons_self _ _, rfl, List.mem_cons_self _ _⟩
        · rcases hm a ha2 with h | ⟨b, hb, hkey, hrow⟩
          · rcases Finset.mem_insert.mp h with heq | h2
            · exact Or.inr ⟨c, List.mem_cons_self _ _, heq.symm, List.mem_cons_self _ _⟩
            · exact Or.inl h2
          · exact Or.inr ⟨b, List.mem_cons.mpr (Or.inr hb), hkey,
              List.mem_cons.mpr (Or.inr hrow)⟩

theorem runOnce_saved_zero (parse : Str → Option DT) (store : List Row) (recs : List Article)
    (now : DT) (limit : Nat)
    (h : (recs.take limit).filter
        (acceptArticle (load_existing_links parse store (subSeconds now 172800))
          (subSeconds now 90000)) = []) :
    (runOnce parse store recs now limit).2 = 0 := by
  simp [runOnce, save_articles, h]

/-- A first-run article whose saved row stays durable for the second run:
its date cell strips non-empty and parses to a naive datetime inside the
recency window, and its link survives re-normalization unchanged. -/
def savedDurable (parse : Str → Option DT) (cutoff2 : DT) (a : Article) : Prop :=
  pstrip a.dateText ≠ []
  ∧ (∃ d, parse (pstrip a.dateText) = some d ∧ d.tz = none ∧ instSecs cutoff2 ≤ instSecs d)
  ∧ normLink (normLink (a.link.getD [])) = normLink (a.link.getD [])

/-- Claim C5 (amended): running the Orchestrator twice in immediate
succession saves zero new rows on the second run, provided the store starts
with a header row and every article accepted on the first run is saved with
a durable row: a date cell that parses to a naive date within the recency
window and a link unchanged by re-normalization.  (The counterexample shows
the unconditional claim fails for articles saved with an empty date cell.) -/
theorem claim_C5_amended (parse : Str → Option DT) (store : List Row) (recs : List Article)
    (now : DT) (limit : Nat) (hhdr : 1 ≤ store.length)
    (hgood : ∀ a ∈ (recs.take limit).filter
        (acceptArticle (load_existing_links parse store (subSeconds now 172800))
          (subSeconds now 90000)),
      savedDurable parse (subSeconds now 172800) a) :
    (runOnce parse (runOnce parse store recs now limit).1 recs now limit).2 = 0 := by
  set cut2 := subSeconds now 172800 with hcut2
  set cutF := subSeconds now 90000 with hcutF
  set links0 := load_existing_links parse store cut2 with hlinks0
  set acc := (recs.take limit).filter (acceptArticle links0 cutF) with hacc
  obtain ⟨extra, hstore1, hrows, hcover⟩ := saveFold_main acc links0 store 0
  set store1 := (acc.foldl saveStep (links0, store, 0)).2.1 with hstore1eq
  set links1 := load_existing_links parse store1 cut2 with hlinks1
  have hrun1 : (runOnce parse store recs now limit).1 = store1 := rfl
  have hdrop : store1.drop 1 = store.drop 1 ++ extra := by
    rw [hstore1, List.drop_append_of_le_length hhdr]
  have hmono : links0 ⊆ links1 := by
    intro k hk
    obtain ⟨row, hrow, hcond⟩ := (load_mem_iff parse store cut2 k).mp hk
    exact (load_mem_iff parse store1 cut2 k).mpr
      ⟨row, by rw [hdrop]; exact List.mem_append_left _ hrow, hcond⟩
  have hacc1 : ∀ a ∈ acc, normLink (a.link.getD []) ∈ links1 := by
    intro a ha
    have haT : acceptArticle links0 cutF a = true := List.of_mem_filter ha
    have hnotin : normLink (a.link.getD []) ∉ links0 := by
      obtain ⟨-, -, -, -, h5, -⟩ := (acceptArticle_iff links0 cutF a).mp haT
      exact h5
    rcases hcover a ha with h | ⟨b, hb, hkey, hrow⟩
    · exact absurd h hnotin
    · have hbT : acceptArticle links0 cutF b = true := List.of_mem_filter hb
      obtain ⟨hd1, ⟨d, hd2, hd3, hd4⟩, hd5⟩ := hgood b hb
      have hg3 : (rowOf b).getD 3 [] = normLink (b.link.getD []) := rfl
      have hg2 : (rowOf b).getD 2 [] = b.dateText := rfl
      refine (load_mem_iff parse store1 cut2 _).mpr
        ⟨rowOf b, ?_, ?_, ?_, ?_, ⟨d, ?_, hd3, hd4⟩, ?_⟩
      · rw [hdrop]
        exact List.mem_append_right _ hrow
      · simp [rowOf]
      · rw [hg3, hd5]
        exact accepted_link_ne links0 cutF b hbT
      · rw [hg2]
        exact hd1
      · rw [hg2]
        exact hd2
      · rw [hg3, hd5, hkey]
  have hrej : ∀ a ∈ recs.take limit, ¬acceptArticle links1 cutF a = true := by
    intro a ha
    by_cases haX : acceptArticle links0 cutF a = true
    · have haM : a ∈ acc := by
        rw [hacc]
        exact List.mem_filter.mpr ⟨ha, haX⟩
      have hin := hacc1 a haM
      intro hF
      obtain ⟨-, -, -, -, h5, -⟩ := (acceptArticle_iff links1 cutF a).mp hF
      exact h5 hin
    · intro hF
      obtain ⟨h1, h2, h3, h4, h5, h6⟩ := (acceptArticle_iff links1 cutF a).mp hF
      exact haX ((acceptArticle_iff links0 cutF a).mpr
        ⟨h1, h2, h3, h4, fun hmem => h5 (hmono hmem), h6⟩)
  have hacc2 : (recs.take limit).filter (acceptArticle links1 cutF) = [] :=
    List.filter_eq_nil_iff.mpr hrej
  rw [hrun1]
  exact runOnce_saved_zero parse store1 recs now limit hacc2

/-- A valid article record with an empty date cell. -/
def artND : Article :=
  ⟨['s'], some ("abcdefgh".toList), some ("http://example.com/a".toList), [],
    none, none, none, none, []⟩

/-- A parser recognizing exactly the date string stored by `artGood`,
returning a naive datetime inside the two-day recency window of `nowW`. -/
def parseG : Str → Option DT := fun s =>
  if s = ("2025-06-01".toList) then some ⟨2025, 6, 1, 0, 0, 0, none⟩ else none

/-- A valid article record whose date cell parses (under `parseG`) to a
naive in-window datetime, so its saved row is durable. -/
def artGood : Article :=
  ⟨['s'], some ("abcdefgh".toList), some ("http://example.com/b".toList),
    ("2025-06-01".toList), none, none, none, none, []⟩

/-- Claim C5 counterexample: with an initially header-only store and one
valid article whose date cell is empty, the second run re-accepts and
re-saves the same article (saved count 1, not 0): the stored empty date
keeps its link out of the recency set. -/
theorem claim_C5_counterexample :
    (runOnce (fun _ => none)
        (runOnce (fun _ => none) [[['h']]] [artND] nowW 20).1 [artND] nowW 20).2 = 1 := by
  decide

theorem claim_C5_witness :
    1 ≤ ([[['h']]] : List Row).length
    ∧ (runOnce parseG [[['h']]] [artGood] nowW 20).2 = 1
    ∧ (runOnce parseG (runOnce parseG [[['h']]] [artGood] nowW 20).1
        [artGood] nowW 20).2 = 0 :=
  ⟨by decide, by decide,
   claim_C5_amended parseG [[['h']]] [artGood] nowW 20 (by decide) (by
     intro a ha
     rw [show ([artGood] : List Article).take 20 = [artGood] from rfl] at ha
     have ha2 := List.mem_singleton.mp (List.mem_of_mem_filter ha)
     subst ha2
     exact ⟨by decide, ⟨⟨2025, 6, 1, 0, 0, 0, none⟩, rfl, rfl, by decide⟩, by decide⟩)⟩

/-! ## `DateParser` (scraper.py lines 76-139) -/

/-- Python regex `\d` on the ASCII strings this program handles. -/
def isDigitPy (c : Char) : Bool :=
  decide (c ∈ (['0', '1', '2', '3', '4', '5', '6', '7', '8', '9'] : List Char))

/-- The `[\w\s]` character class. -/
def isWordSpace (c : Char) : Bool := isWordPy c || isSpacePy c

/-- Case-insensitive literal match at the front: consume the lowercase
literal `w` from `t` and return the remainder. -/
def prefixCI : Str → Str → Option Str
  | [], t => some t
  | _ :: _, [] => none
  | w :: ws, c :: cs => if c.toLower = w then prefixCI ws cs else none

/-- The noise patterns of `parse_date` (lines 82-93) as a small pattern
language: `byClause` is `BY\s+[\w\s]+` (the `by` variant is the same
pattern since every substitution runs with `re.IGNORECASE`), `litOn w` is
`w\s+on`, `bullet` is `•`, `pipeStar` is `\|\s*`, `dashWs` is `\s-\s`, and
`clsComma` is the final `[,|•]` class. -/
inductive Pat where
  | byClause
  | litOn (w : Str)
  | bullet
  | pipeStar
  | dashWs
  | clsComma
deriving DecidableEq, Repr

/-- Anchored leftmost match of a pattern: `some r` returns the remainder
after the (greedy, backtracking-correct) match, `none` means no match
starting here.  For `byClause`, `\s+[\w\s]+` after `by` matches exactly
when the next char is whitespace and the maximal `[\w\s]` run has length at
least 2, consuming that whole run. -/
def matchAt : Pat → Str → Option Str
  | .byClause, c1 :: c2 :: rest =>
    if c1.toLower = 'b' ∧ c2.toLower = 'y' then
      match rest with
      | [] => none
      | r :: _ =>
        if isSpacePy r ∧ 2 ≤ (rest.takeWhile isWordSpace).length
        then some (rest.dropWhile isWordSpace)
        else none
    else none
  | .byClause, _ => none
  | .litOn w, t =>
    match prefixCI w t with
    | none => none
    | some r1 =>
      if r1.takeWhile isSpacePy = [] then none
      else prefixCI ("on".toList) (r1.dropWhile isSpacePy)
  | .bullet, c :: rest => if c = '•' then some rest else none
  | .bullet, [] => none
  | .pipeStar, c :: rest => if c = '|' then some (rest.dropWhile isSpacePy) else none
  | .pipeStar, [] => none
  | .dashWs, a :: b :: c :: rest =>
    if isSpacePy a ∧ b = '-' ∧ isSpacePy c then some rest else none
  | .dashWs, _ => none
  | .clsComma, c :: rest => if c = ',' ∨ c = '|' ∨ c = '•' then some rest else none
  | .clsComma, [] => none

theorem dropWhile_len_le (p : Char → Bool) (l : Str) :
    (l.dropWhile p).length ≤ l.length :=
  (List.dropWhile_sublist p).length_le

theorem prefixCI_length : ∀ (w t r : Str), prefixCI w t = some r →
    r.length + w.length = t.length := by
  intro w
  induction w with
  | nil =>
    intro t r h
    simp only [prefixCI, Option.some.injEq] at h
    subst h
    simp
  | cons a w ih =>
    intro t r h
    cases t with
    | nil => simp [prefixCI] at h
    | cons c cs =>
      simp only [prefixCI] at h
      split_ifs at h
      have := ih cs r h
      simp only [List.length_cons]
      omega

theorem matchAt_length (p : Pat) (t r : Str) (h : matchAt p t = some r) :
    r.length < t.length := by
  cases p with
  | byClause =>
    match t with
    | [] => simp [matchAt] at h
    | [c1] => simp [matchAt] at h
    | c1 :: c2 :: rest =>
      simp only [matchAt] at h
      split_ifs at h
      cases rest with
      | nil => simp at h
      | cons r0 rs =>
        dsimp only at h
        split_ifs at h
        have h2 := Option.some.inj h
        subst h2
        have h3 := dropWhile_len_le isWordSpace (r0 :: rs)
        simp only [List.length_cons] at h3 ⊢
        omega
  | litOn w =>
    simp only [matchAt] at h
    cases hp : prefixCI w t with
    | none => rw [hp] at h; simp at h
    | some r1 =>
      rw [hp] at h
      dsimp only at h
      split_ifs at h with hsp
      have hlen1 := prefixCI_length w t r1 hp
      have hlen2 := prefixCI_length _ _ _ h
      have hon : ("on".toList).length = 2 := rfl
      have hlen3 : (r1.dropWhile isSpacePy).length < r1.length := by
        have hsplit := List.takeWhile_append_dropWhile (p := isSpacePy) (l := r1)
        have hlen := congrArg List.length hsplit
        rw [List.length_append] at hlen
        have htw : (r1.takeWhile isSpacePy).length ≠ 0 := by
          intro hz
          exact hsp (List.eq_nil_of_length_eq_zero hz)
        omega
      omega
  | bullet =>
    cases t with
    | nil => simp [matchAt] at h
    | cons c cs =>
      simp only [matchAt] at h
      split_ifs at h
      have h2 := Option.some.inj h
      subst h2
      simp
  | pipeStar =>
    cases t with
    | nil => simp [matchAt] at h
    | cons c cs =>
      simp only [matchAt] at h
      split_ifs at h
      have h2 := Option.some.inj h
      subst h2
      have := dropWhile_len_le isSpacePy cs
      simp only [List.length_cons]
      omega
  | dashWs =>
    match t with
    | [] => simp [matchAt] at h
    | [a] => simp [matchAt] at h
    | [a, b] => simp [matchAt] at h
    | a :: b :: c :: rest =>
      simp only [matchAt] at h
      split_ifs at h
      have h2 := Option.some.inj h
      subst h2
      simp only [List.length_cons]
      omega
  | clsComma =>
    cases t with
    | nil => simp [matchAt] at h
    | cons c cs =>
      simp only [matchAt] at h
      split_ifs at h
      have h2 := Option.some.inj h
      subst h2
      simp

/-- Fuelled worker for `subAll`; the fuel only needs to cover the input
length because every match consumes at least one character. -/
def subAllGo (p : Pat) (repl : Str) : Nat → Str → Str
  | 0, t => t
  | _ + 1, [] => []
  | f + 1, c :: cs =>
    match matchAt p (c :: cs) with
    | some rest => repl ++ subAllGo p repl f rest
    | none => c :: subAllGo p repl f cs

/-- Python `re.sub(p, repl, t)`: leftmost, non-overlapping, scan-and-replace
over the whole string. -/
def subAll (p : Pat) (repl : Str) (t : Str) : Str := subAllGo p repl t.length t

theorem subAllGo_fuel (p : Pat) (repl : Str) :
    ∀ (f f2 : Nat) (t : Str), t.length ≤ f → t.length ≤ f2 →
      subAllGo p repl f t = subAllGo p repl f2 t := by
  intro f
  induction f with
  | zero =>
    intro f2 t ht _
    have : t = [] := List.eq_nil_of_length_eq_zero (by omega)
    subst this
    cases f2 <;> rfl
  | succ f ih =>
    intro f2 t ht ht2
    cases t with
    | nil => cases f2 <;> rfl
    | cons c cs =>
      simp only [List.length_cons] at ht ht2
      cases f2 with
      | zero => omega
      | succ f2 =>
        simp only [subAllGo]
        cases hm : matchAt p (c :: cs) with
        | some rest =>
          have hlt := matchAt_length p (c :: cs) rest hm
          simp only [List.length_cons] at hlt
          dsimp only
          rw [ih f2 rest (by omega) (by omega)]
        | none =>
          dsimp only
          rw [ih f2 cs (by omega) (by omega)]

theorem subAll_match (p : Pat) (repl : Str) (c : Char) (cs rest : Str)
    (h : matchAt p (c :: cs) = some rest) :
    subAll p repl (c :: cs) = repl ++ subAll p repl rest := by
  unfold subAll
  have hlt := matchAt_length p (c :: cs) rest h
  simp only [List.length_cons]
  rw [subAllGo]
  rw [h]
  dsimp only
  rw [subAllGo_fuel p repl cs.length rest.length rest (by simp at hlt; omega) (Nat.le_refl _)]

theorem subAll_no_match (p : Pat) (repl : Str) (c : Char) (cs : Str)
    (h : matchAt p (c :: cs) = none) :
    subAll p repl (c :: cs) = c :: subAll p repl cs := by
  unfold subAll
  simp only [List.length_cons]
  rw [subAllGo]
  rw [h]

/-- The substitution patterns of `parse_date` in source order (the two
`BY`/`by` patterns coincide under `re.IGNORECASE`). -/
def pyPats : List Pat :=
  [.byClause, .byClause, .litOn ("posted".toList), .litOn ("published".toList),
   .litOn ("updated".toList), .bullet, .pipeStar, .dashWs]

/-- The full noise-stripping pipeline of `parse_date` lines 81-93:
initial `strip()`, one `re.sub(p, " ", ...).strip()` per pattern, then the
final `re.sub(r"[,|•]", " ", ...).strip()`. -/
def stripNoise (raw : Str) : Str :=
  pstrip (subAll .clsComma [' ']
    (pyPats.foldl (fun t p => pstrip (subAll p [' '] t)) (pstrip raw)))

theorem digit_char_facts (c : Char) (hc : isDigitPy c = true) :
    c.toLower ≠ 'b' ∧ c.toLower ≠ 'p' ∧ c.toLower ≠ 'u' ∧ c ≠ '•' ∧ c ≠ '|'
    ∧ isSpacePy c = false ∧ c ≠ ',' := by
  have hm : c ∈ (['0', '1', '2', '3', '4', '5', '6', '7', '8', '9'] : List Char) := by
    simpa [isDigitPy] using hc
  fin_cases hm <;> exact ⟨by decide, by decide, by decide, by decide, by decide, by decide,
    by decide⟩

theorem matchAt_digit_none (p : Pat) (hp : p ∈ pyPats ∨ p = Pat.clsComma) (c : Char)
    (cs : Str) (hc : isDigitPy c = true) : matchAt p (c :: cs) = none := by
  obtain ⟨f1, f2, f3, f4, f5, f6, f7⟩ := digit_char_facts c hc
  rcases hp with hp | rfl
  · fin_cases hp
    · cases cs with
      | nil => rfl
      | cons c2 rest => simp [matchAt, f1]
    · cases cs with
      | nil => rfl
      | cons c2 rest => simp [matchAt, f1]
    · simp [show ("posted".toList) = ['p', 'o', 's', 't', 'e', 'd'] from rfl,
        matchAt, prefixCI, f2]
    · simp [show ("published".toList) = ['p', 'u', 'b', 'l', 'i', 's', 'h', 'e', 'd'] from rfl,
        matchAt, prefixCI, f2]
    · simp [show ("updated".toList) = ['u', 'p', 'd', 'a', 't', 'e', 'd'] from rfl,
        matchAt, prefixCI, f3]
    · simp [matchAt, f4]
    · simp [matchAt, f5]
    · match cs with
      | [] => rfl
      | [b] => rfl
      | b :: d :: rest => simp [matchAt, f6]
  · simp [matchAt, f7, f5, f4]

theorem subAll_digits (p : Pat) (hp : p ∈ pyPats ∨ p = Pat.clsComma) (repl : Str) :
    ∀ (ds rest : Str), (∀ c ∈ ds, isDigitPy c = true) →
      subAll p repl (ds ++ rest) = ds ++ subAll p repl rest := by
  intro ds
  induction ds with
  | nil => intro rest _; simp
  | cons d ds ih =>
    intro rest hds
    have hd : isDigitPy d = true := hds d (List.mem_cons_self _ _)
    rw [List.cons_append,
      subAll_no_match p repl d (ds ++ rest) (matchAt_digit_none p hp d _ hd),
      ih rest (fun c hc => hds c (List.mem_cons.mpr (Or.inr hc)))]
    rfl

theorem dropWhile_id_of_head (p : Char → Bool) (t : Str)
    (h : ∀ c, t.head? = some c → p c = false) : t.dropWhile p = t := by
  cases t with
  | nil => rfl
  | cons c cs => simp [List.dropWhile_cons, h c rfl]

theorem pstrip_id_of (t : Str) (h1 : ∀ c, t.head? = some c → isSpacePy c = false)
    (h2 : ∀ c, t.getLast? = some c → isSpacePy c = false) : pstrip t = t := by
  unfold pstrip
  rw [dropWhile_id_of_head _ t h1]
  rw [dropWhile_id_of_head _ t.reverse (by
    intro c hc
    rw [List.head?_reverse] at hc
    exact h2 c hc)]
  exact List.reverse_reverse t

theorem pstrip_digits (ds rest : Str) (hne : ds ≠ []) (hds : ∀ c ∈ ds, isDigitPy c = true)
    (hrne : rest ≠ []) (hrlast : ∀ c, rest.getLast? = some c → isSpacePy c = false) :
    pstrip (ds ++ rest) = ds ++ rest := by
  refine pstrip_id_of _ ?_ ?_
  · intro c hc
    cases ds with
    | nil => exact absurd rfl hne
    | cons d ds2 =>
      simp only [List.cons_append, List.head?_cons, Option.some.injEq] at hc
      subst hc
      exact (digit_char_facts _ (hds _ (List.mem_cons_self _ _))).2.2.2.2.2.1
  · intro c hc
    rw [List.getLast?_append] at hc
    cases hr : rest.getLast? with
    | none => exact absurd (List.getLast?_eq_none_iff.mp hr) hrne
    | some x =>
      rw [hr] at hc
      simp only [Option.or_some, Option.some.injEq] at hc
      subst hc
      exact hrlast x hr

theorem hasSub_append_right (needle xs ys : Str) (h : hasSub needle ys = true) :
    hasSub needle (xs ++ ys) = true := by
  induction xs with
  | nil => simpa
  | cons a xs ih => simp [hasSub, ih]

/-- A digit-prefixed text is untouched by the whole stripping pipeline,
provided the concrete tail is itself untouched by every pattern. -/
theorem stripNoise_digits (ds rest : Str) (hne : ds ≠ [])
    (hds : ∀ c ∈ ds, isDigitPy c = true) (hrne : rest ≠ [])
    (hrlast : ∀ c, rest.getLast? = some c → isSpacePy c = false)
    (hsub : ∀ p ∈ pyPats, subAll p [' '] rest = rest)
    (hsubc : subAll Pat.clsComma [' '] rest = rest) :
    stripNoise (ds ++ rest) = ds ++ rest := by
  unfold stripNoise
  have hfold : ∀ (l : List Pat), (∀ p ∈ l, p ∈ pyPats) →
      l.foldl (fun t p => pstrip (subAll p [' '] t)) (ds ++ rest) = ds ++ rest := by
    intro l
    induction l with
    | nil => intro _; rfl
    | cons p l ih =>
      intro hl
      have hpl : p ∈ pyPats := hl p (List.mem_cons_self _ _)
      rw [List.foldl_cons, subAll_digits p (Or.inl hpl) [' '] ds rest hds,
        hsub p hpl, pstrip_digits ds rest hne hds hrne hrlast]
      exact ih (fun q hq => hl q (List.mem_cons.mpr (Or.inr hq)))
  rw [pstrip_digits ds rest hne hds hrne hrlast, hfold pyPats (fun p hp => hp),
    subAll_digits Pat.clsComma (Or.inr rfl) [' '] ds rest hds, hsubc,
    pstrip_digits ds rest hne hds hrne hrlast]

/-! ### Relative-date parsing (`parse_relative`, lines 107-135) -/

/-- Python `int(...)` of a captured decimal digit run. -/
def natOfDigits (ds : Str) : Nat := ds.foldl (fun a c => 10 * a + (c.toNat - 48)) 0

/-- Regex `\s+<kw>` after the captured digits: at least one whitespace char, then
the (lowercase) keyword case-insensitively. -/
def checkRest (kw r : Str) : Bool :=
  !decide (r.takeWhile isSpacePy = []) && (prefixCI kw (r.dropWhile isSpacePy)).isSome

/-- Python `re.search(r"(\d+)\s+<kw>", ...)` anchored at the current position:
the maximal digit run (greedy `\d+`), then `checkRest`. -/
def tryNum (kw t : Str) : Option Nat :=
  if t.takeWhile isDigitPy ≠ [] ∧ checkRest kw (t.dropWhile isDigitPy) = true
  then some (natOfDigits (t.takeWhile isDigitPy)) else none

/-- Leftmost `re.search`: try every start position left to right. -/
def findRel (kw : Str) : Str → Option Nat
  | [] => none
  | c :: cs =>
    if isDigitPy c then
      match tryNum kw (c :: cs) with
      | some n => some n
      | none => findRel kw cs
    else findRel kw cs

/-- The units of the `parse_relative` pattern table (including the `hr` and
`min` abbreviation rows). -/
inductive RUnit where
  | hour
  | hr
  | minute
  | minAbbr
  | day
  | week
  | month
  | year
deriving DecidableEq, Repr

/-- Keyword searched for each pattern row. -/
def kwOf : RUnit → Str
  | .hour => "hour".toList
  | .hr => "hr".toList
  | .minute => "minute".toList
  | .minAbbr => "min".toList
  | .day => "day".toList
  | .week => "week".toList
  | .month => "month".toList
  | .year => "year".toList

/-- The arithmetic applied for each pattern row: fixed-length `timedelta`
for hours/minutes/days/weeks, calendar-aware `relativedelta` for
months/years. -/
def relShift (now : DT) (u : RUnit) (n : Nat) : DT :=
  match u with
  | .hour => subSeconds now (3600 * (n : Int))
  | .hr => subSeconds now (3600 * (n : Int))
  | .minute => subSeconds now (60 * (n : Int))
  | .minAbbr => subSeconds now (60 * (n : Int))
  | .day => subSeconds now (86400 * (n : Int))
  | .week => subSeconds now (604800 * (n : Int))
  | .month => subMonths now (n : Int)
  | .year => subYears now (n : Int)

/-- The pattern table of `parse_relative` in source order. -/
def relPats : List (Str × RUnit) :=
  [("hour".toList, .hour), ("hr".toList, .hr), ("minute".toList, .minute),
   ("min".toList, .minAbbr), ("day".toList, .day), ("week".toList, .week),
   ("month".toList, .month), ("year".toList, .year)]

/-- First pattern with a match wins; no match at all gives `None`. -/
def relLoop (now : DT) (text : Str) : List (Str × RUnit) → Option DT
  | [] => none
  | (kw, u) :: rest =>
    match findRel kw text with
    | some n => some (relShift now u n)
    | none => relLoop now text rest

/-- Method `DateParser.parse_relative`. -/
def parse_relative (text : Str) (now : DT) : Option DT := relLoop now text relPats

/-- Method `DateParser.parse_date` (lines 77-105), with the external fuzzy absolute
parser `dateutil.parser.parse(text, fuzzy=True)` taken as the parameter
`fz` (`none` models a raised exception). -/
def parse_date (fz : Str → Option DT) (raw : Str) (now : DT) : Option DT :=
  if raw = [] then none
  else
    let text := stripNoise raw
    if hasSub ("ago".toList) (lowerStr text) then parse_relative text now
    else if hasSub ("today".toList) (lowerStr text) then some (setNoon now)
    else if hasSub ("yesterday".toList) (lowerStr text) then
      some (setNoon (subSeconds now 86400))
    else (fz text).map setNoon

/-- Canonical decimal rendering of `n`, as `str(n)` produces it. -/
def charDigits (n : Nat) : Str :=
  if n = 0 then ['0'] else ((Nat.digits 10 n).reverse).map (fun d => Char.ofNat (48 + d))

/-- The relative date string `"<n> <unit> ago"`. -/
def renderRel (n : Nat) (u : RUnit) : Str :=
  charDigits n ++ (' ' :: (kwOf u ++ (" ago".toList)))

theorem charDigits_ne_nil (n : Nat) : charDigits n ≠ [] := by
  unfold charDigits
  by_cases h : n = 0
  · rw [if_pos h]; simp
  · rw [if_neg h]
    have h2 : Nat.digits 10 n ≠ [] := Nat.digits_ne_nil_iff_ne_zero.mpr h
    simp [h2]

theorem charDigits_digits (n : Nat) : ∀ c ∈ charDigits n, isDigitPy c = true := by
  unfold charDigits
  by_cases h : n = 0
  · rw [if_pos h]
    intro c hc
    simp only [List.mem_singleton] at hc
    subst hc
    decide
  · rw [if_neg h]
    intro c hc
    simp only [List.mem_map, List.mem_reverse] at hc
    obtain ⟨d, hd, rfl⟩ := hc
    have hlt : d < 10 := Nat.digits_lt_base (by norm_num) hd
    interval_cases d <;> decide

theorem natOfDigits_aux :
    ∀ (L : List Nat), (∀ d ∈ L, d < 10) → ∀ acc : Nat,
      (L.reverse.map (fun d => Char.ofNat (48 + d))).foldl
        (fun a c => 10 * a + (c.toNat - 48)) acc
      = acc * 10 ^ L.length + Nat.ofDigits 10 L := by
  intro L
  induction L with
  | nil => intro _ acc; simp [Nat.ofDigits]
  | cons d L ih =>
    intro hL acc
    rw [List.reverse_cons, List.map_append, List.foldl_append,
      ih (fun x hx => hL x (List.mem_cons.mpr (Or.inr hx))) acc]
    have hd : d < 10 := hL d (List.mem_cons_self _ _)
    have hch : (Char.ofNat (48 + d)).toNat - 48 = d := by
      interval_cases d <;> decide
    simp only [List.map_cons, List.map_nil, List.foldl_cons, List.foldl_nil, hch,
      Nat.ofDigits_cons, List.length_cons]
    ring

theorem natOfDigits_charDigits (n : Nat) : natOfDigits (charDigits n) = n := by
  unfold charDigits
  by_cases h : n = 0
  · rw [if_pos h, h]
    decide
  · rw [if_neg h]
    unfold natOfDigits
    rw [natOfDigits_aux (Nat.digits 10 n) (fun d hd => Nat.digits_lt_base (by norm_num) hd) 0]
    simp [Nat.ofDigits_digits]

theorem takeWhile_digits_append (ds rest : Str) (hds : ∀ c ∈ ds, isDigitPy c = true)
    (hr : ∀ c, rest.head? = some c → isDigitPy c = false) :
    (ds ++ rest).takeWhile isDigitPy = ds ∧ (ds ++ rest).dropWhile isDigitPy = rest := by
  induction ds with
  | nil =>
    refine ⟨?_, dropWhile_id_of_head _ _ hr⟩
    cases rest with
    | nil => rfl
    | cons c cs => simp [List.takeWhile_cons, hr c rfl]
  | cons d ds ih =>
    have hd := hds d (List.mem_cons_self _ _)
    obtain ⟨h1, h2⟩ := ih (fun c hc => hds c (List.mem_cons.mpr (Or.inr hc)))
    constructor
    · simp only [List.cons_append, List.takeWhile_cons, hd, if_true]
      rw [h1]
    · simp only [List.cons_append, List.dropWhile_cons, hd, if_true]
      rw [h2]

theorem findRel_digits (kw : Str) :
    ∀ (ds rest : Str), (∀ c ∈ ds, isDigitPy c = true) →
      (∀ c, rest.head? = some c → isDigitPy c = false) →
      findRel kw (ds ++ rest)
        = if ds ≠ [] ∧ checkRest kw rest = true then some (natOfDigits ds)
          else findRel kw rest := by
  intro ds
  induction ds with
  | nil => intro rest _ _; simp
  | cons d ds ih =>
    intro rest hds hr
    have hd : isDigitPy d = true := hds d (List.mem_cons_self _ _)
    obtain ⟨ht, hdp⟩ := takeWhile_digits_append (d :: ds) rest hds hr
    have htry : tryNum kw ((d :: ds) ++ rest)
        = if checkRest kw rest = true then some (natOfDigits (d :: ds)) else none := by
      unfold tryNum
      rw [ht, hdp]
      by_cases hc : checkRest kw rest = true
      · rw [if_pos ⟨by simp, hc⟩, if_pos hc]
      · rw [if_neg (fun hx => hc hx.2), if_neg hc]
    rw [List.cons_append]
    show findRel kw (d :: (ds ++ rest)) = _
    rw [findRel]
    rw [if_pos hd]
    rw [← List.cons_append, htry]
    by_cases hc : checkRest kw rest = true
    · rw [if_pos hc]
      dsimp only
      rw [if_pos ⟨by simp, hc⟩]
    · rw [if_neg hc]
      dsimp only
      rw [ih rest (fun c hcc => hds c (List.mem_cons.mpr (Or.inr hcc))) hr]
      by_cases hd2 : ds = []
      · subst hd2
        rw [if_neg (fun hx => hc hx.2), if_neg (fun hx => hc hx.2)]
      · rw [if_neg (fun hx => hc hx.2), if_neg (fun hx => hc hx.2)]

theorem relLoop_cons_none (now : DT) (text : Str) (kw : Str) (u : RUnit)
    (rest : List (Str × RUnit)) (h : findRel kw text = none) :
    relLoop now text ((kw, u) :: rest) = relLoop now text rest := by
  rw [relLoop, h]

theorem relLoop_cons_some (now : DT) (text : Str) (kw : Str) (u : RUnit)
    (rest : List (Str × RUnit)) (n : Nat) (h : findRel kw text = some n) :
    relLoop now text ((kw, u) :: rest) = some (relShift now u n) := by
  rw [relLoop, h]

theorem relLoop_split (now : DT) (text : Str) (pre post : List (Str × RUnit))
    (kw : Str) (u : RUnit) (m : Nat)
    (hpre : ∀ kwu ∈ pre, findRel kwu.1 text = none)
    (hkw : findRel kw text = some m) :
    relLoop now text (pre ++ (kw, u) :: post) = some (relShift now u m) := by
  induction pre with
  | nil => exact relLoop_cons_some now text kw u post m hkw
  | cons p pre ih =>
    rw [List.cons_append]
    obtain ⟨pk, pu⟩ := p
    rw [relLoop_cons_none now text pk pu _ (hpre (pk, pu) (List.mem_cons_self _ _))]
    exact ih (fun kwu hk => hpre kwu (List.mem_cons.mpr (Or.inr hk)))

theorem head_not_digit_of (t : Str) (c0 : Char) (h : t.head? = some c0)
    (hc0 : isDigitPy c0 = false) : ∀ c, t.head? = some c → isDigitPy c = false := by
  intro c hc
  rw [h] at hc
  injection hc with h2
  subst h2
  exact hc0

theorem last_not_space_of (t : Str) (c0 : Char) (h : t.getLast? = some c0)
    (hc0 : isSpacePy c0 = false) : ∀ c, t.getLast? = some c → isSpacePy c = false := by
  intro c hc
  rw [h] at hc
  injection hc with h2
  subst h2
  exact hc0

/-- Core evaluation of `parse_date` on a digit run followed by a fixed tail
that the noise-stripper leaves alone, contains `ago`, and whose first
`checkRest`-matching pattern row is `(kw, u)`. -/
theorem parse_render_core (fz : Str → Option DT) (now : DT) (ds rest : Str)
    (hne : ds ≠ []) (hds : ∀ c ∈ ds, isDigitPy c = true)
    (hrne : rest ≠ [])
    (hrh : ∀ c, rest.head? = some c → isDigitPy c = false)
    (hrlast : ∀ c, rest.getLast? = some c → isSpacePy c = false)
    (hsub : ∀ p ∈ pyPats, subAll p [' '] rest = rest)
    (hsubc : subAll Pat.clsComma [' '] rest = rest)
    (hago : hasSub ("ago".toList) (lowerStr rest) = true)
    (pre post : List (Str × RUnit)) (kw : Str) (u : RUnit)
    (hsplit : relPats = pre ++ (kw, u) :: post)
    (hpre : ∀ kwu ∈ pre, checkRest kwu.1 rest = false ∧ findRel kwu.1 rest = none)
    (hkw : checkRest kw rest = true) :
    parse_date fz (ds ++ rest) now = some (relShift now u (natOfDigits ds)) := by
  have hstrip : stripNoise (ds ++ rest) = ds ++ rest :=
    stripNoise_digits ds rest hne hds hrne hrlast hsub hsubc
  have hraw : (ds ++ rest : Str) ≠ [] := by
    cases ds with
    | nil => exact absurd rfl hne
    | cons a l => simp
  have hagoFull : hasSub ("ago".toList) (lowerStr (ds ++ rest)) = true := by
    unfold lowerStr
    rw [List.map_append]
    exact hasSub_append_right _ _ _ hago
  have hpre2 : ∀ kwu ∈ pre, findRel kwu.1 (ds ++ rest) = none := by
    intro kwu hk
    rw [findRel_digits kwu.1 ds rest hds hrh]
    have hnot : ¬(ds ≠ [] ∧ checkRest kwu.1 rest = true) := by
      intro hx
      rw [(hpre kwu hk).1] at hx
      exact absurd hx.2 (by decide)
    rw [if_neg hnot]
    exact (hpre kwu hk).2
  have hmain : findRel kw (ds ++ rest) = some (natOfDigits ds) := by
    rw [findRel_digits kw ds rest hds hrh, if_pos ⟨hne, hkw⟩]
  unfold parse_date
  rw [if_neg hraw]
  dsimp only
  rw [hstrip, hagoFull, if_pos rfl]
  unfold parse_relative
  rw [hsplit]
  exact relLoop_split now (ds ++ rest) pre post kw u (natOfDigits ds) hpre2 hmain

/-- One unit of the relative-date table: `"<n> <unit> ago"` parses to the
corresponding shift, given the (decidable) facts about the concrete tail. -/
theorem renderRel_case (fz : Str → Option DT) (now : DT) (n : Nat) (u : RUnit) (k : Nat)
    (hsplit : relPats = relPats.take k ++ (kwOf u, u) :: relPats.drop (k + 1))
    (hpre : ∀ kwu ∈ relPats.take k,
      checkRest kwu.1 (' ' :: (kwOf u ++ (" ago".toList))) = false ∧
      findRel kwu.1 (' ' :: (kwOf u ++ (" ago".toList))) = none)
    (hkw : checkRest (kwOf u) (' ' :: (kwOf u ++ (" ago".toList))) = true)
    (hlast : (' ' :: (kwOf u ++ (" ago".toList))).getLast? = some 'o')
    (hsub : ∀ p ∈ pyPats, subAll p [' '] (' ' :: (kwOf u ++ (" ago".toList)))
      = ' ' :: (kwOf u ++ (" ago".toList)))
    (hsubc : subAll Pat.clsComma [' '] (' ' :: (kwOf u ++ (" ago".toList)))
      = ' ' :: (kwOf u ++ (" ago".toList)))
    (hago : hasSub ("ago".toList) (lowerStr (' ' :: (kwOf u ++ (" ago".toList)))) = true) :
    parse_date fz (renderRel n u) now = some (relShift now u n) := by
  have h := parse_render_core fz now (charDigits n) (' ' :: (kwOf u ++ (" ago".toList)))
    (charDigits_ne_nil n) (charDigits_digits n) (by simp)
    (head_not_digit_of _ ' ' rfl (by decide))
    (last_not_space_of _ 'o' hlast (by decide))
    hsub hsubc hago (relPats.take k) (relPats.drop (k + 1)) (kwOf u) u hsplit hpre hkw
  rw [natOfDigits_charDigits n] at h
  rw [renderRel]
  exact h

/-- C6: for every relative date string of the form `"<n> <unit> ago"` with
unit among hour, hr, minute, min, day, week, month, year and any
non-negative integer `n` rendered in decimal, `parse_date` returns `now`
minus `n` of that unit: a fixed-length `timedelta` shift for
hours/minutes/days/weeks and calendar-aware `relativedelta` arithmetic for
months/years.  In particular one month before 2025-03-31 is 2025-02-28
(not the fixed 30-day shift, which lands on 2025-03-01), and one year
before 2024-02-29 clamps to 2023-02-28. -/
theorem claim_C6 :
    (∀ (fz : Str → Option DT) (now : DT) (n : Nat) (u : RUnit),
      parse_date fz (renderRel n u) now = some (relShift now u n)) ∧
    subMonths ⟨2025, 3, 31, 12, 0, 0, none⟩ 1 = ⟨2025, 2, 28, 12, 0, 0, none⟩ ∧
    subSeconds ⟨2025, 3, 31, 12, 0, 0, none⟩ (30 * 86400) = ⟨2025, 3, 1, 12, 0, 0, none⟩ ∧
    subYears ⟨2024, 2, 29, 12, 0, 0, none⟩ 1 = ⟨2023, 2, 28, 12, 0, 0, none⟩ ∧
    relShift ⟨2025, 3, 31, 12, 0, 0, none⟩ RUnit.month 1 = ⟨2025, 2, 28, 12, 0, 0, none⟩ := by
  refine ⟨?_, by decide, by decide, by decide, by decide⟩
  intro fz now n u
  cases u with
  | hour =>
    exact renderRel_case fz now n RUnit.hour 0 (by decide) (by decide) (by decide)
      (by decide) (by decide) (by decide) (by decide)
  | hr =>
    exact renderRel_case fz now n RUnit.hr 1 (by decide) (by decide) (by decide)
      (by decide) (by decide) (by decide) (by decide)
  | minute =>
    exact renderRel_case fz now n RUnit.minute 2 (by decide) (by decide) (by decide)
      (by decide) (by decide) (by decide) (by decide)
  | minAbbr =>
    exact renderRel_case fz now n RUnit.minAbbr 3 (by decide) (by decide) (by decide)
      (by decide) (by decide) (by decide) (by decide)
  | day =>
    exact renderRel_case fz now n RUnit.day 4 (by decide) (by decide) (by decide)
      (by decide) (by decide) (by decide) (by decide)
  | week =>
    exact renderRel_case fz now n RUnit.week 5 (by decide) (by decide) (by decide)
      (by decide) (by decide) (by decide) (by decide)
  | month =>
    exact renderRel_case fz now n RUnit.month 6 (by decide) (by decide) (by decide)
      (by decide) (by decide) (by decide) (by decide)
  | year =>
    exact renderRel_case fz now n RUnit.year 7 (by decide) (by decide) (by decide)
      (by decide) (by decide) (by decide) (by decide)

/-- C7: for every reference time `now` with a well-formed time of day,
`parse_date` maps `"today"` to `now` with the time replaced by exactly
12:00:00 (same calendar date), and `"yesterday"` to `now - 1 day` at
exactly 12:00:00: its ordinal day number is one less than that of `now`. -/
theorem claim_C7 (fz : Str → Option DT) (now : DT)
    (hh : 0 ≤ now.hour ∧ now.hour < 24) (hm : 0 ≤ now.minute ∧ now.minute < 60)
    (hs : 0 ≤ now.second ∧ now.second < 60) :
    parse_date fz ("today".toList) now = some (setNoon now) ∧
    (setNoon now).year = now.year ∧ (setNoon now).month = now.month ∧
    (setNoon now).day = now.day ∧ (setNoon now).hour = 12 ∧
    (setNoon now).minute = 0 ∧ (setNoon now).second = 0 ∧
    parse_date fz ("yesterday".toList) now = some (setNoon (subSeconds now 86400)) ∧
    toOrd (setNoon (subSeconds now 86400)) = toOrd now - 1 ∧
    (setNoon (subSeconds now 86400)).hour = 12 ∧
    (setNoon (subSeconds now 86400)).minute = 0 ∧
    (setNoon (subSeconds now 86400)).second = 0 := by
  refine ⟨rfl, rfl, rfl, rfl, rfl, rfl, rfl, rfl, ?_, rfl, rfl, rfl⟩
  have h1 : toOrd (subSeconds now 86400) = (epochSecs now - 86400) / 86400 :=
    ymd2ord_ord2ymd ((epochSecs now - 86400) / 86400) _ _ _ rfl
  have h0 : toOrd (setNoon (subSeconds now 86400)) = toOrd (subSeconds now 86400) := rfl
  have h2 : epochSecs now
      = 86400 * toOrd now + (3600 * now.hour + 60 * now.minute + now.second) := by
    unfold epochSecs
    ring
  rw [h0, h1, h2]
  omega

theorem claim_C7_witness :
    (0 ≤ nowW.hour ∧ nowW.hour < 24) ∧
    parse_date (fun _ => none) ("yesterday".toList) nowW
      = some (setNoon (subSeconds nowW 86400)) ∧
    toOrd (setNoon (subSeconds nowW 86400)) = toOrd nowW - 1 :=
  ⟨by decide,
   (claim_C7 (fun _ => none) nowW (by decide) (by decide) (by decide)).2.2.2.2.2.2.2.1,
   (claim_C7 (fun _ => none) nowW (by decide) (by decide) (by decide)).2.2.2.2.2.2.2.2.1⟩

/-- C8 counterexample: on an absolute date string the fuzzy parse of which
returns a timezone-naive datetime, `parse_date` forces noon but attaches
NO timezone: the result is still naive (`tz = none`), not stamped with the
canonical IST offset (+330 minutes) the spec promises. -/
theorem claim_C8_counterexample :
    parse_date (fun _ => some ⟨2024, 1, 5, 9, 30, 0, none⟩) ("2024".toList) nowW
      = some ⟨2024, 1, 5, 12, 0, 0, none⟩ ∧
    (⟨2024, 1, 5, 12, 0, 0, none⟩ : DT).tz = none ∧
    (⟨2024, 1, 5, 12, 0, 0, none⟩ : DT).tz ≠ some 330 :=
  ⟨rfl, rfl, by decide⟩

/-- C8 amended: on input free of the `ago`/`today`/`yesterday` keywords
(after noise stripping), `parse_date` returns the fuzzy parse result with
time of day forced to exactly 12:00:00 and the date and timezone field
passed through unchanged — the result is naive exactly when the parse
result is naive, with no canonical timezone ever attached; on parse
failure it returns `none`. -/
theorem claim_C8_amended (fz : Str → Option DT) (raw : Str) (now : DT)
    (hraw : raw ≠ [])
    (h1 : hasSub ("ago".toList) (lowerStr (stripNoise raw)) = false)
    (h2 : hasSub ("today".toList) (lowerStr (stripNoise raw)) = false)
    (h3 : hasSub ("yesterday".toList) (lowerStr (stripNoise raw)) = false) :
    parse_date fz raw now = (fz (stripNoise raw)).map setNoon ∧
    (∀ dt, fz (stripNoise raw) = some dt →
      parse_date fz raw now = some (setNoon dt) ∧
      (setNoon dt).hour = 12 ∧ (setNoon dt).minute = 0 ∧ (setNoon dt).second = 0 ∧
      (setNoon dt).year = dt.year ∧ (setNoon dt).month = dt.month ∧
      (setNoon dt).day = dt.day ∧ (setNoon dt).tz = dt.tz) ∧
    (fz (stripNoise raw) = none → parse_date fz raw now = none) := by
  have hF : ¬(false = true) := by decide
  have hmain : parse_date fz raw now = (fz (stripNoise raw)).map setNoon := by
    unfold parse_date
    rw [if_neg hraw]
    dsimp only
    rw [h1, if_neg hF, h2, if_neg hF, h3, if_neg hF]
  refine ⟨hmain, ?_, ?_⟩
  · intro dt hdt
    refine ⟨?_, rfl, rfl, rfl, rfl, rfl, rfl, rfl⟩
    rw [hmain, hdt]
    rfl
  · intro hnone
    rw [hmain, hnone]
    rfl

theorem claim_C8_witness :
    ("2024-01-05".toList : Str) ≠ [] ∧
    parse_date (fun _ => some ⟨2024, 1, 5, 9, 30, 0, some 120⟩) ("2024-01-05".toList) nowW
      = ((fun (_ : Str) => some (⟨2024, 1, 5, 9, 30, 0, some 120⟩ : DT))
          (stripNoise ("2024-01-05".toList))).map setNoon :=
  ⟨by decide,
   (claim_C8_amended (fun _ => some ⟨2024, 1, 5, 9, 30, 0, some 120⟩)
     ("2024-01-05".toList) nowW (by decide) (by decide) (by decide) (by decide)).1⟩

end News
